import Mathlib

/-!
Verification development for the "Database Properties" Obsidian plugin
(schema aggregation over frontmatter blocks, edit operations on the unified
property list, and replay of the edited list back onto every file).

The definitions below are a shallow embedding of the two plugin source
variants (`src/main.ts` and the variant source file with
`updateMarkdownFiles`/`stringifyValue`).  Frontmatter values are modelled by
the inductive `Value`; JavaScript's `crypto.randomUUID()` identifiers are
modelled by a deterministic fresh-id counter (only freshness/distinctness of
the identifiers is ever used by the code).
-/

set_option maxHeartbeats 1600000

/-- A frontmatter value as the plugin can observe it: `null`/`undefined`, an
array, a boolean, a number, a native `Date` object (its payload modelled as an
epoch number; no theorem depends on it), or a string. -/
inductive Value where
  | vnull : Value
  | vlist : List Value → Value
  | vbool : Bool → Value
  | vnum : Int → Value
  | vdate : Nat → Value
  | vstr : String → Value
deriving Repr

mutual

def valueDecEq : (a b : Value) → Decidable (a = b)
  | .vnull, .vnull => isTrue rfl
  | .vnull, .vlist _ => isFalse (fun h => Value.noConfusion h)
  | .vnull, .vbool _ => isFalse (fun h => Value.noConfusion h)
  | .vnull, .vnum _ => isFalse (fun h => Value.noConfusion h)
  | .vnull, .vdate _ => isFalse (fun h => Value.noConfusion h)
  | .vnull, .vstr _ => isFalse (fun h => Value.noConfusion h)
  | .vlist _, .vnull => isFalse (fun h => Value.noConfusion h)
  | .vlist xs, .vlist ys =>
      match valueListDecEq xs ys with
      | isTrue h => isTrue (by rw [h])
      | isFalse h => isFalse (by intro hh; injection hh with h2; exact h h2)
  | .vlist _, .vbool _ => isFalse (fun h => Value.noConfusion h)
  | .vlist _, .vnum _ => isFalse (fun h => Value.noConfusion h)
  | .vlist _, .vdate _ => isFalse (fun h => Value.noConfusion h)
  | .vlist _, .vstr _ => isFalse (fun h => Value.noConfusion h)
  | .vbool _, .vnull => isFalse (fun h => Value.noConfusion h)
  | .vbool _, .vlist _ => isFalse (fun h => Value.noConfusion h)
  | .vbool a, .vbool b =>
      match decEq a b with
      | isTrue h => isTrue (by rw [h])
      | isFalse h => isFalse (by intro hh; injection hh with h2; exact h h2)
  | .vbool _, .vnum _ => isFalse (fun h => Value.noConfusion h)
  | .vbool _, .vdate _ => isFalse (fun h => Value.noConfusion h)
  | .vbool _, .vstr _ => isFalse (fun h => Value.noConfusion h)
  | .vnum _, .vnull => isFalse (fun h => Value.noConfusion h)
  | .vnum _, .vlist _ => isFalse (fun h => Value.noConfusion h)
  | .vnum _, .vbool _ => isFalse (fun h => Value.noConfusion h)
  | .vnum a, .vnum b =>
      match decEq a b with
      | isTrue h => isTrue (by rw [h])
      | isFalse h => isFalse (by intro hh; injection hh with h2; exact h h2)
  | .vnum _, .vdate _ => isFalse (fun h => Value.noConfusion h)
  | .vnum _, .vstr _ => isFalse (fun h => Value.noConfusion h)
  | .vdate _, .vnull => isFalse (fun h => Value.noConfusion h)
  | .vdate _, .vlist _ => isFalse (fun h => Value.noConfusion h)
  | .vdate _, .vbool _ => isFalse (fun h => Value.noConfusion h)
  | .vdate _, .vnum _ => isFalse (fun h => Value.noConfusion h)
  | .vdate a, .vdate b =>
      match decEq a b with
      | isTrue h => isTrue (by rw [h])
      | isFalse h => isFalse (by intro hh; injection hh with h2; exact h h2)
  | .vdate _, .vstr _ => isFalse (fun h => Value.noConfusion h)
  | .vstr _, .vnull => isFalse (fun h => Value.noConfusion h)
  | .vstr _, .vlist _ => isFalse (fun h => Value.noConfusion h)
  | .vstr _, .vbool _ => isFalse (fun h => Value.noConfusion h)
  | .vstr _, .vnum _ => isFalse (fun h => Value.noConfusion h)
  | .vstr _, .vdate _ => isFalse (fun h => Value.noConfusion h)
  | .vstr a, .vstr b =>
      match decEq a b with
      | isTrue h => isTrue (by rw [h])
      | isFalse h => isFalse (by intro hh; injection hh with h2; exact h h2)

def valueListDecEq : (xs ys : List Value) → Decidable (xs = ys)
  | [], [] => isTrue rfl
  | [], _ :: _ => isFalse (fun h => List.noConfusion h)
  | _ :: _, [] => isFalse (fun h => List.noConfusion h)
  | x :: xs, y :: ys =>
      match valueDecEq x y, valueListDecEq xs ys with
      | isTrue h1, isTrue h2 => isTrue (by rw [h1, h2])
      | isFalse h1, _ => isFalse (by intro hh; injection hh with a b; exact h1 a)
      | _, isFalse h2 => isFalse (by intro hh; injection hh with a b; exact h2 b)

end

instance : DecidableEq Value := valueDecEq

/-- A document's metadata block: its key/value pairs in the block's native
order (`Object.entries` order in the source). -/
abbrev Frontmatter := List (String × Value)

/-- One selected document's metadata block; `none` models a file whose cache
has no frontmatter at all. -/
abbrev DocInput := Option Frontmatter

/-- The `Property` record of the source (`interface Property`): identifier,
key name, value and display type label.  The auxiliary `types?` set that the
source keeps only on the aggregation-map entries is modelled on `AggEntry`
below. -/
structure Property where
  id : Nat
  key : String
  value : Value
  type : String
deriving Repr, DecidableEq

/-- Chars `0`-`9`, the JavaScript regex class `\d`. -/
def isAsciiDigit (c : Char) : Bool := c.isDigit

/-- The test `/^\d{4}-\d{2}-\d{2}$/.test value` of `getPropertyType`. -/
def isDateFormat (s : String) : Bool :=
  match s.data with
  | [y1, y2, y3, y4, '-', m1, m2, '-', d1, d2] =>
      isAsciiDigit y1 && isAsciiDigit y2 && isAsciiDigit y3 && isAsciiDigit y4 &&
      isAsciiDigit m1 && isAsciiDigit m2 && isAsciiDigit d1 && isAsciiDigit d2
  | _ => false

/-- The test `/^\d{4}-\d{2}-\d{2} \d{2}:\d{2}$/.test value` of
`getPropertyType`. -/
def isDateTimeFormat (s : String) : Bool :=
  match s.data with
  | [y1, y2, y3, y4, '-', m1, m2, '-', d1, d2, ' ', h1, h2, ':', n1, n2] =>
      isAsciiDigit y1 && isAsciiDigit y2 && isAsciiDigit y3 && isAsciiDigit y4 &&
      isAsciiDigit m1 && isAsciiDigit m2 && isAsciiDigit d1 && isAsciiDigit d2 &&
      isAsciiDigit h1 && isAsciiDigit h2 && isAsciiDigit n1 && isAsciiDigit n2
  | _ => false

/-- Function `getPropertyType` of the source: per-value type-label inference.
The checks run in the source's order: `null`/`undefined`, `Array.isArray`,
`typeof boolean`, `typeof number`, `instanceof Date`, the two string regex
checks, and `'Text'` as the fallback. -/
def getPropertyType (value : Value) : String :=
  match value with
  | Value.vnull => "Null"
  | Value.vlist _ => "List"
  | Value.vbool _ => "Checkbox"
  | Value.vnum _ => "Number"
  | Value.vdate _ => "Date & time"
  | Value.vstr s =>
      if isDateFormat s then "Date"
      else if isDateTimeFormat s then "Date & time"
      else "Text"

/-- Insertion-ordered set insertion: JavaScript `Set.prototype.add` keeps the
first insertion position of an element and appends unseen elements.  The same
function describes first-seen deduplication of key names. -/
def addDistinct (acc : List String) (x : String) : List String :=
  if x ∈ acc then acc else acc ++ [x]

/-- An entry of `propertiesMap` during aggregation: the source's `Property`
with its `types` set (modelled as an insertion-ordered duplicate-free list). -/
structure AggEntry where
  id : Nat
  key : String
  value : Value
  types : List String
deriving Repr, DecidableEq

/-- The mutable aggregation state of `getProperties`: the insertion-ordered
`propertiesMap` (a JavaScript `Map` iterates in insertion order) plus the
fresh-identifier counter that models `crypto.randomUUID()` (each new key gets
a process-unique identifier). -/
structure AggState where
  map : List AggEntry
  counter : Nat
deriving Repr, DecidableEq

/-- One iteration of the `Object.entries(frontmatter).forEach` body of
`getProperties`: look the key up in `propertiesMap`; if absent mint a fresh
identifier and append a map entry with a `null` placeholder value and an empty
type set; add this value's inferred type to the entry's type set; and return
the snapshot record `{id, key, value, type}` pushed onto `frontmatterList`.
(The `main.ts` variant stores `null` as the map entry's placeholder value; the
other variant stores `''`.  No theorem below depends on which placeholder is
used, and the embedding follows `main.ts`.) -/
def processKV (st : AggState) (key : String) (value : Value) : AggState × Property :=
  let t := getPropertyType value
  match st.map.find? (fun e => e.key == key) with
  | some e =>
      ({ st with
          map := st.map.map fun e2 =>
            if e2.key == key then { e2 with types := addDistinct e2.types t } else e2 },
       { id := e.id, key := key, value := value, type := t })
  | none =>
      ({ map := st.map ++ [{ id := st.counter, key := key, value := Value.vnull,
                             types := addDistinct [] t }],
         counter := st.counter + 1 },
       { id := st.counter, key := key, value := value, type := t })

/-- Process one document's frontmatter entries in order, producing the
document's snapshot `frontmatterList`. -/
def processDoc (st : AggState) (doc : Frontmatter) : AggState × List Property :=
  match doc with
  | [] => (st, [])
  | (k, v) :: rest =>
      let step := processKV st k v
      let restRes := processDoc step.1 rest
      (restRes.1, step.2 :: restRes.2)

/-- The `for (const file of fileList)` loop of `getProperties`: every file
contributes exactly one snapshot, in file order; a file without frontmatter
contributes an empty one. -/
def processDocs (st : AggState) (docs : List DocInput) : AggState × List (List Property) :=
  match docs with
  | [] => (st, [])
  | d :: rest =>
      let first :=
        match d with
        | some kvs => processDoc st kvs
        | none => (st, [])
      let restRes := processDocs first.1 rest
      (restRes.1, first.2 :: restRes.2)

/-- The final `Array.from(propertiesMap.values()).map(...)` of
`getProperties`: each map entry becomes a unified property whose display type
is the type set joined with `' | '`. -/
def finalizeProp (e : AggEntry) : Property :=
  { id := e.id, key := e.key, value := e.value, type := String.intercalate " | " e.types }

/-- Function `getProperties` of the source: aggregate the selected documents into
(the unified property list, the per-document snapshot list).  The snapshot
store starts empty, as `initializeView` resets `frontmatterLists` to `[]`
before calling `getProperties`. -/
def getProperties (docs : List DocInput) : List Property × List (List Property) :=
  let res := processDocs { map := [], counter := 0 } docs
  (res.1.map.map finalizeProp, res.2)

/-- JavaScript `String.prototype.trim`: drop whitespace from both ends. -/
def jsTrim (s : String) : String :=
  { data := ((s.data.dropWhile Char.isWhitespace).reverse.dropWhile
      Char.isWhitespace).reverse }

/-- Handler `addNewProperty` of the modal: trim the typed name; if it is empty or
collides with an existing key name the operation is a no-op, otherwise append
a fresh entry (`main.ts` uses `value: null, type: 'Null'`).  The fresh
`crypto.randomUUID()` identifier is passed in as `freshId`. -/
def addNewProperty (propertyList : List Property) (newAddNameRaw : String)
    (freshId : Nat) : List Property :=
  let newAddName := jsTrim newAddNameRaw
  if newAddName != "" && !(propertyList.any fun p => p.key == newAddName) then
    propertyList ++ [{ id := freshId, key := newAddName, value := Value.vnull, type := "Null" }]
  else propertyList

/-- Replace the element at position `n` (out-of-range indices leave the list
unchanged, matching a mutation of one already-captured list element). -/
def modifyIdx (f : α → α) : Nat → List α → List α
  | _, [] => []
  | 0, a :: as => f a :: as
  | n + 1, a :: as => a :: modifyIdx f n as

/-- The rename callback of `updateListSection`: `if (name &&
!this.propertyList.some(p => p.key === name)) prop.key = name`.  The mutated
object `prop` is the working-list element at position `i`; only its `key`
field changes, and the whole operation is a no-op for an empty or
already-used name. -/
def renameProperty (propertyList : List Property) (i : Nat) (name : String) :
    List Property :=
  if name != "" && !(propertyList.any fun p => p.key == name) then
    modifyIdx (fun p => { p with key := name }) i propertyList
  else propertyList

/-- The delete callback of `updateListSection`:
`this.propertyList.filter(p => p !== prop)`.  `prop` is the element at
position `i` and JavaScript reference inequality removes exactly that
occurrence, so the operation is `eraseIdx`. -/
def deleteProperty (propertyList : List Property) (i : Nat) : List Property :=
  propertyList.eraseIdx i

/-- JavaScript `arr.splice(n, 0, a)`: insert before position `n`, appending at
the end when `n` is past the end. -/
def spliceInsert (n : Nat) (a : α) (l : List α) : List α :=
  match n, l with
  | 0, l => a :: l
  | _ + 1, [] => [a]
  | n + 1, x :: xs => x :: spliceInsert n a xs

/-- Handler `onDrop` of the modal: find the dragged entry by identifier, and when both
indices are valid and differ, splice it out and re-insert it at the drop
index (the drop index is read off the DOM before the removal and applied to
the shortened list, exactly as the two `splice` calls do).  The
`draggedId`-absent and `dropIndex === -1` guard failures are the `none` and
caller-side no-op cases. -/
def onDrop (propertyList : List Property) (draggedId : Nat) (dropIndex : Nat) :
    List Property :=
  match propertyList.findIdx? (fun p => p.id == draggedId) with
  | none => propertyList
  | some draggedIndex =>
      if draggedIndex == dropIndex then propertyList
      else
        match propertyList.get? draggedIndex with
        | none => propertyList
        | some draggedItem =>
            spliceInsert dropIndex draggedItem (propertyList.eraseIdx draggedIndex)

/-- The body of the per-entry emission shared by `batchWriteFrontmatter`
(`main.ts`) and `updateMarkdownFiles` (the other variant): emit the
working-list entry's current key name together with the value of the snapshot
entry carrying the same identifier
(`frontmatterList.find(fm => fm.id === prop.id) || prop`), falling back to the
working-list entry's own value when the document never had the key. -/
def replayEntry (frontmatterList : List Property) (prop : Property) :
    String × Value :=
  match frontmatterList.find? (fun fm => fm.id == prop.id) with
  | some found => (prop.key, found.value)
  | none => (prop.key, prop.value)

/-- The per-file replay core: one emission per working-list entry, in
working-list order. -/
def replayDoc (propertyList : List Property) (frontmatterList : List Property) :
    List (String × Value) :=
  propertyList.map (replayEntry frontmatterList)

/-- Function `batchWriteFrontmatter` of `main.ts`, abstracted to the key/value pairs it
writes: the loop runs `i` over the file list and rewrites file `i` from
`this.frontmatterLists[i]` (an out-of-range read yields `undefined`, modelled
as the empty snapshot). -/
def batchWriteFrontmatter (numFiles : Nat) (propertyList : List Property)
    (frontmatterLists : List (List Property)) : List (List (String × Value)) :=
  (List.range numFiles).map fun i =>
    replayDoc propertyList (frontmatterLists.getD i [])

/-- The four JavaScript line terminators, which the regex `.` never matches. -/
def isJsLineTerm (c : Char) : Bool :=
  c == '\n' || c == '\r' || c == Char.ofNat 0x2028 || c == Char.ofNat 0x2029

/-- The regex test `wikiLinkPattern = /^\[\[.*\]\]$/` applied to a string: the whole string
is `[[`, then any characters containing no line terminator (the JavaScript
`.` never matches a line terminator), then `]]`. -/
def wikiLinkTest (s : String) : Bool :=
  s.data.length ≥ 4 &&
  (s.data.take 2 == ['[', '[']) &&
  (s.data.drop (s.data.length - 2) == [']', ']']) &&
  ((s.data.drop 2).take (s.data.length - 4)).all (fun c => !(isJsLineTerm c))

mutual

/-- JavaScript template-literal string coercion `String(v)` for the modelled
value shapes (`null` renders as `"null"`, booleans and numbers in the usual
way, arrays join their elements with `","` rendering `null` elements empty).
The rendering chosen for a native `Date` payload stands in for the
host-dependent `Date.prototype.toString`; no theorem depends on it. -/
def jsString : Value → String
  | Value.vnull => "null"
  | Value.vbool b => cond b "true" "false"
  | Value.vnum q => toString q
  | Value.vdate n => "Date(" ++ toString n ++ ")"
  | Value.vstr s => s
  | Value.vlist vs => jsElems vs

def jsElems : List Value → String
  | [] => ""
  | [v] => jsElem v
  | v :: rest => jsElem v ++ "," ++ jsElems rest

def jsElem : Value → String
  | Value.vnull => ""
  | Value.vbool b => cond b "true" "false"
  | Value.vnum q => toString q
  | Value.vdate n => "Date(" ++ toString n ++ ")"
  | Value.vstr s => s
  | Value.vlist vs => jsElems vs

end

/-- The call `v.replace(/"/g, '\\"')` on a character list: escape every double quote. -/
def escapeQuotesChars : List Char → List Char
  | [] => []
  | '"' :: rest => '\\' :: '"' :: escapeQuotesChars rest
  | c :: rest => c :: escapeQuotesChars rest

/-- The call `v.replace(/"/g, '\\"')`: escape every double quote. -/
def escapeQuotes (s : String) : String := { data := escapeQuotesChars s.data }

/-- The body of the `value.map(...)` callback in `stringifyValue`: each array
element becomes a `\n  - ` block-sequence entry.  When the element's string
coercion matches `wikiLinkPattern`, the source calls `v.replace(/"/g, '\\"')`:
for a string element this yields the quoted, escaped entry, but a non-string
element (for instance a nested array whose coercion matches the pattern) has
no `replace` method and the call throws a `TypeError`, modelled as `none`. -/
def stringifyElem (v : Value) : Option String :=
  if wikiLinkTest (jsString v) then
    match v with
    | Value.vstr s => some ("\n  - \"" ++ escapeQuotes s ++ "\"")
    | _ => none
  else
    some ("\n  - " ++ jsString v)

/-- Function `stringifyValue` of the `updateMarkdownFiles` variant, composed with the
template-literal coercion applied by its caller
(`` `${key}: ${this.stringifyValue(value)}` ``): arrays render as the
concatenation (`.join('')`) of their block-sequence entries — aborting with
the `TypeError` (`none`) of the first element whose serialization throws —
and every other value passes through as its string form. -/
def stringifyValue (v : Value) : Option String :=
  match v with
  | Value.vlist vs => (vs.mapM stringifyElem).map String.join
  | w => some (jsString w)

/-- Splitting a character list on every occurrence of `---`, scanning left to
right — the semantics of JavaScript `content.split('---')`. -/
def splitTD : List Char → List Char → List (List Char)
  | acc, '-' :: '-' :: '-' :: rest => acc.reverse :: splitTD [] rest
  | acc, c :: rest => splitTD (c :: acc) rest
  | acc, [] => [acc.reverse]

/-- JavaScript `content.split('---')`. -/
def jsSplitTripleDash (s : String) : List String :=
  (splitTD [] s.data).map (fun l => { data := l })

/-- The body of the per-file loop of `updateMarkdownFiles`: render the
replayed properties as `key: value` lines (`none` models a `TypeError` thrown
inside `stringifyValue`, which aborts the write), wrap them in `---` fences
(or nothing when there are no properties), and append
`content.split('---').slice(2).join('---').trim()` as the new body. -/
def updateOneFile (propertyList : List Property) (frontmatterList : List Property)
    (content : String) : Option String :=
  (propertyList.mapM fun prop =>
    let found := (frontmatterList.find? (fun fm => fm.id == prop.id)).getD prop
    (stringifyValue found.value).map (fun sv => prop.key ++ ": " ++ sv)).map
    fun renderList =>
      let newFrontmatter :=
        if renderList.length != 0 then
          "---\n" ++ String.intercalate "\n" renderList ++ "\n---\n"
        else ""
      let newContent :=
        jsTrim (String.intercalate "---" ((jsSplitTripleDash content).drop 2))
      newFrontmatter ++ newContent

/-- The modal's state as far as the engine is concerned: the mutable working
list `this.propertyList` and the plugin's snapshot store
`this.plugin.frontmatterLists`. -/
structure Session where
  propertyList : List Property
  frontmatterLists : List (List Property)
deriving Repr, DecidableEq

/-- Method `initializeView` of the modal: reset the snapshot store to `[]`, then run
`getProperties`, which appends one snapshot per selected file. -/
def initView (docs : List DocInput) : Session :=
  { propertyList := (getProperties docs).1, frontmatterLists := (getProperties docs).2 }

/-- The add handler acting on the session: it touches only `propertyList`. -/
def sessionAdd (s : Session) (name : String) (freshId : Nat) : Session :=
  { s with propertyList := addNewProperty s.propertyList name freshId }

/-- The rename handler acting on the session: it touches only `propertyList`. -/
def sessionRename (s : Session) (i : Nat) (name : String) : Session :=
  { s with propertyList := renameProperty s.propertyList i name }

/-- The delete handler acting on the session: it touches only `propertyList`. -/
def sessionDelete (s : Session) (i : Nat) : Session :=
  { s with propertyList := deleteProperty s.propertyList i }

/-- The drop handler acting on the session: it touches only `propertyList`. -/
def sessionReorder (s : Session) (draggedId dropIndex : Nat) : Session :=
  { s with propertyList := onDrop s.propertyList draggedId dropIndex }

/-- First position of a key in a key list (the list's length when absent). -/
def keyIdx (k : String) : List String → Nat
  | [] => 0
  | a :: rest => if a = k then 0 else keyIdx k rest + 1

/-- Fold a key stream into an accumulator of distinct keys in first-seen
order. -/
def keysFold (acc : List String) (ks : List String) : List String :=
  ks.foldl addDistinct acc

/-- The concatenated key/value stream of a document selection, in selection
order (a document without frontmatter contributes nothing). -/
def streamOf : List DocInput → Frontmatter
  | [] => []
  | d :: rest => d.getD [] ++ streamOf rest

/-- The distinct key names of a key/value stream, in first-seen order. -/
def unifiedKeys (pre : Frontmatter) : List String :=
  keysFold [] (pre.map Prod.fst)

/-- The inferred types of a key's occurrences in a stream, deduplicated in
first-insertion order — the contents of the `types` set of the aggregation
map entry for that key. -/
def typesOf (pre : Frontmatter) (k : String) : List String :=
  ((pre.filter fun kv => decide (kv.1 = k)).map fun kv => getPropertyType kv.2).foldl
    addDistinct []

/-- The snapshot record that aggregation produces for one key/value pair of a
document, with the identifier read off as the key's position in the unified
key list. -/
def mkSnapEntry (F : List String) (kv : String × Value) : Property :=
  { id := keyIdx kv.1 F, key := kv.1, value := kv.2, type := getPropertyType kv.2 }

/-- The unified property that aggregation produces for one distinct key. -/
def unifiedProp (pre : Frontmatter) (k : String) : Property :=
  { id := keyIdx k (unifiedKeys pre), key := k, value := Value.vnull,
    type := String.intercalate " | " (typesOf pre k) }

/-- The value a document contributes for a key at replay: the value of the
document's first entry with that key, or the `null` placeholder when the
document lacks the key. -/
def resolveDoc (doc : Frontmatter) (k : String) : Value :=
  match doc.find? (fun kv => kv.1 == k) with
  | some kv => kv.2
  | none => Value.vnull

/-- Characterization of the aggregation state after consuming a key/value
stream `pre`: map keys are the distinct stream keys in first-seen order,
identifiers are key positions (the counter models `crypto.randomUUID()`
freshness), placeholder values are `null`, and each entry's type set holds
the inferred types of its key's occurrences. -/
def stateChar (st : AggState) (pre : Frontmatter) : Prop :=
  st.map.map AggEntry.key = unifiedKeys pre ∧
  st.counter = (unifiedKeys pre).length ∧
  ∀ e ∈ st.map, e.id = keyIdx e.key (unifiedKeys pre) ∧ e.value = Value.vnull ∧
    e.types = typesOf pre e.key

/-- Fallback record used only as the `getD` default in statements about list
positions that are proved to be in range. -/
def dfltProp : Property := { id := 0, key := "", value := Value.vnull, type := "" }

/-- Sample working list used by concrete witnesses. -/
def wProps : List Property :=
  [{ id := 0, key := "a", value := Value.vstr "x", type := "Text" },
   { id := 1, key := "b", value := Value.vnull, type := "Null" }]

/-- Sample snapshot used by concrete witnesses. -/
def wSnap : List Property :=
  [{ id := 0, key := "a", value := Value.vstr "y", type := "Text" }]

/-- Sample document selection used by concrete witnesses. -/
def wDocs : List DocInput :=
  [some [("a", Value.vstr "1"), ("c", Value.vnum 2)],
   some [("b", Value.vbool true), ("a", Value.vstr "2")],
   none]

/-- A second sample selection, agreeing with `wDocs` on every key but
differing in the first document's values. -/
def wDocs2 : List DocInput :=
  [some [("a", Value.vstr "ZZ"), ("c", Value.vnum 99)],
   some [("b", Value.vbool true), ("a", Value.vstr "2")],
   none]

example : getPropertyType (Value.vstr "2023-01-15") = "Date" := by decide

example : getPropertyType (Value.vstr "2023-01-15 09:30") = "Date & time" := by decide

example :
    getProperties [some [("K", Value.vnum 1)], some [("K", Value.vstr "hello")]] =
      ([{ id := 0, key := "K", value := Value.vnull, type := "Number | Text" }],
       [[{ id := 0, key := "K", value := Value.vnum 1, type := "Number" }],
        [{ id := 0, key := "K", value := Value.vstr "hello", type := "Text" }]]) := by
  decide

theorem keyIdx_append_of_mem {k : String} {l t : List String} (h : k ∈ l) :
    keyIdx k (l ++ t) = keyIdx k l := by
  induction l with
  | nil => exact absurd h (List.not_mem_nil k)
  | cons a rest ih =>
    by_cases ha : a = k
    · simp [keyIdx, ha]
    · have hk : k ∈ rest := by
        rcases List.mem_cons.mp h with h1 | h1
        · exact absurd h1.symm ha
        · exact h1
      simp [keyIdx, ha, ih hk]

theorem keyIdx_append_of_not_mem {k : String} {l : List String} (h : k ∉ l)
    (t : List String) : keyIdx k (l ++ t) = l.length + keyIdx k t := by
  induction l with
  | nil => simp [keyIdx]
  | cons a rest ih =>
    have ha : a ≠ k := fun hak => h (hak ▸ List.mem_cons_self a rest)
    have hrest : k ∉ rest := fun hk => h (List.mem_cons_of_mem a hk)
    simp [keyIdx, ha, ih hrest]
    omega

theorem keyIdx_lt_length {k : String} {l : List String} (h : k ∈ l) :
    keyIdx k l < l.length := by
  induction l with
  | nil => exact absurd h (List.not_mem_nil k)
  | cons a rest ih =>
    by_cases ha : a = k
    · simp [keyIdx, ha]
    · have hk : k ∈ rest := by
        rcases List.mem_cons.mp h with h1 | h1
        · exact absurd h1.symm ha
        · exact h1
      simp only [keyIdx, if_neg ha, List.length_cons]
      exact Nat.succ_lt_succ (ih hk)

theorem getD_keyIdx {k : String} {l : List String} (h : k ∈ l) :
    l.getD (keyIdx k l) "" = k := by
  induction l with
  | nil => exact absurd h (List.not_mem_nil k)
  | cons a rest ih =>
    by_cases ha : a = k
    · simp [keyIdx, ha]
    · have hk : k ∈ rest := by
        rcases List.mem_cons.mp h with h1 | h1
        · exact absurd h1.symm ha
        · exact h1
      simp only [keyIdx, if_neg ha, List.getD_cons_succ]
      exact ih hk

theorem keyIdx_inj {a b : String} {l : List String} (ha : a ∈ l) (hb : b ∈ l)
    (h : keyIdx a l = keyIdx b l) : a = b := by
  have h1 := getD_keyIdx ha
  have h2 := getD_keyIdx hb
  rw [h] at h1
  exact h1.symm.trans h2

theorem mem_addDistinct {x y : String} {acc : List String} :
    y ∈ addDistinct acc x ↔ y ∈ acc ∨ y = x := by
  unfold addDistinct
  by_cases h : x ∈ acc
  · simp only [if_pos h]
    constructor
    · exact Or.inl
    · rintro (hy | hy)
      · exact hy
      · exact hy ▸ h
  · simp [if_neg h]

theorem nodup_addDistinct {x : String} {acc : List String} (h : acc.Nodup) :
    (addDistinct acc x).Nodup := by
  unfold addDistinct
  by_cases hx : x ∈ acc
  · simpa [if_pos hx]
  · simp only [if_neg hx, List.nodup_append]
    refine ⟨h, List.nodup_singleton x, ?_⟩
    intro a ha hb
    rw [List.mem_singleton] at hb
    exact hx (hb ▸ ha)

theorem keysFold_append (acc s t : List String) :
    keysFold acc (s ++ t) = keysFold (keysFold acc s) t :=
  List.foldl_append addDistinct acc s t

theorem keysFold_extends (acc ks : List String) :
    ∃ u, keysFold acc ks = acc ++ u := by
  induction ks generalizing acc with
  | nil => exact ⟨[], by simp [keysFold]⟩
  | cons a rest ih =>
    rcases ih (addDistinct acc a) with ⟨u, hu⟩
    by_cases h : a ∈ acc
    · refine ⟨u, ?_⟩
      have ha : addDistinct acc a = acc := by simp [addDistinct, h]
      calc keysFold acc (a :: rest) = keysFold (addDistinct acc a) rest := rfl
        _ = addDistinct acc a ++ u := hu
        _ = acc ++ u := by rw [ha]
    · refine ⟨a :: u, ?_⟩
      have ha : addDistinct acc a = acc ++ [a] := by simp [addDistinct, h]
      calc keysFold acc (a :: rest) = keysFold (addDistinct acc a) rest := rfl
        _ = addDistinct acc a ++ u := hu
        _ = (acc ++ [a]) ++ u := by rw [ha]
        _ = acc ++ a :: u := by simp

theorem mem_keysFold {x : String} {acc ks : List String} :
    x ∈ keysFold acc ks ↔ x ∈ acc ∨ x ∈ ks := by
  induction ks generalizing acc with
  | nil => simp [keysFold]
  | cons a rest ih =>
    have hstep : keysFold acc (a :: rest) = keysFold (addDistinct acc a) rest := rfl
    rw [hstep, ih]
    rw [mem_addDistinct]
    constructor
    · rintro ((h | h) | h)
      · exact Or.inl h
      · exact Or.inr (h ▸ List.mem_cons_self a rest)
      · exact Or.inr (List.mem_cons_of_mem a h)
    · rintro (h | h)
      · exact Or.inl (Or.inl h)
      · rcases List.mem_cons.mp h with h1 | h1
        · exact Or.inl (Or.inr h1)
        · exact Or.inr h1

theorem nodup_keysFold {acc ks : List String} (h : acc.Nodup) :
    (keysFold acc ks).Nodup := by
  induction ks generalizing acc with
  | nil => simpa [keysFold]
  | cons a rest ih => exact ih (nodup_addDistinct h)

theorem unifiedKeys_nodup (pre : Frontmatter) : (unifiedKeys pre).Nodup :=
  nodup_keysFold List.nodup_nil

theorem unifiedKeys_append_last (pre : Frontmatter) (k : String) (v : Value) :
    unifiedKeys (pre ++ [(k, v)]) = addDistinct (unifiedKeys pre) k := by
  unfold unifiedKeys
  rw [List.map_append, keysFold_append]
  rfl

theorem mem_unifiedKeys {x : String} {pre : Frontmatter} :
    x ∈ unifiedKeys pre ↔ x ∈ pre.map Prod.fst := by
  unfold unifiedKeys
  rw [mem_keysFold]
  simp

theorem typesOf_append_last (pre : Frontmatter) (k0 : String) (v0 : Value) (k : String) :
    typesOf (pre ++ [(k0, v0)]) k =
      if k = k0 then addDistinct (typesOf pre k) (getPropertyType v0) else typesOf pre k := by
  unfold typesOf
  rw [List.filter_append, List.map_append, List.foldl_append]
  by_cases h : k = k0
  · subst h
    simp
  · have hne : k0 ≠ k := fun hh => h hh.symm
    simp [if_neg h, hne]

theorem typesOf_of_not_mem {pre : Frontmatter} {k : String}
    (h : k ∉ pre.map Prod.fst) : typesOf pre k = [] := by
  unfold typesOf
  have : pre.filter (fun kv => decide (kv.1 = k)) = [] := by
    apply List.filter_eq_nil_iff.mpr
    intro kv hkv
    simp only [decide_eq_true_eq]
    intro hk
    exact h (hk ▸ List.mem_map_of_mem Prod.fst hkv)
  rw [this]
  rfl

theorem processKV_char {st : AggState} {pre : Frontmatter} (k : String) (v : Value)
    (h : stateChar st pre) :
    stateChar (processKV st k v).1 (pre ++ [(k, v)]) ∧
    (processKV st k v).2 = mkSnapEntry (unifiedKeys (pre ++ [(k, v)])) (k, v) := by
  obtain ⟨hkeys, hcnt, hent⟩ := h
  have hK' : unifiedKeys (pre ++ [(k, v)]) = addDistinct (unifiedKeys pre) k :=
    unifiedKeys_append_last pre k v
  unfold stateChar processKV mkSnapEntry
  cases hfind : st.map.find? (fun e => e.key == k) with
  | none =>
    have hnot : k ∉ unifiedKeys pre := by
      rw [← hkeys]
      intro hmem
      rcases List.mem_map.mp hmem with ⟨e, he, hek⟩
      have hne := List.find?_eq_none.mp hfind e he
      simp only [beq_iff_eq] at hne
      exact hne hek
    have hadd : addDistinct (unifiedKeys pre) k = unifiedKeys pre ++ [k] := by
      simp [addDistinct, hnot]
    have hnotpre : k ∉ pre.map Prod.fst := fun hm => hnot (mem_unifiedKeys.mpr hm)
    have hkidx : keyIdx k (unifiedKeys (pre ++ [(k, v)])) = st.counter := by
      rw [hK', hadd, keyIdx_append_of_not_mem hnot]
      simp [keyIdx, hcnt]
    dsimp only
    refine ⟨⟨?_, ?_, ?_⟩, ?_⟩
    · rw [List.map_append, hkeys, hK', hadd]
      rfl
    · rw [hK', hadd, List.length_append, hcnt]
      rfl
    · intro e he
      rcases List.mem_append.mp he with he1 | he1
      · obtain ⟨hid, hval, hty⟩ := hent e he1
        have hkmem : e.key ∈ unifiedKeys pre := by
          rw [← hkeys]; exact List.mem_map_of_mem AggEntry.key he1
        have hkne : e.key ≠ k := fun hek => hnot (hek ▸ hkmem)
        refine ⟨?_, hval, ?_⟩
        · rw [hK', hadd, keyIdx_append_of_mem hkmem]
          exact hid
        · rw [typesOf_append_last, if_neg hkne]
          exact hty
      · rw [List.mem_singleton] at he1
        subst he1
        refine ⟨?_, rfl, ?_⟩
        · dsimp only
          rw [hkidx]
        · dsimp only
          rw [typesOf_append_last, if_pos rfl, typesOf_of_not_mem hnotpre]
    · rw [Property.mk.injEq]
      exact ⟨hkidx.symm, rfl, rfl, rfl⟩
  | some e =>
    have hpe : e.key = k := by
      have hb := List.find?_some hfind
      simpa using hb
    have hme : e ∈ st.map := List.mem_of_find?_eq_some hfind
    have hkmem : k ∈ unifiedKeys pre := by
      rw [← hkeys, ← hpe]
      exact List.mem_map_of_mem AggEntry.key hme
    have hadd : addDistinct (unifiedKeys pre) k = unifiedKeys pre := by
      simp [addDistinct, hkmem]
    have hKeq : unifiedKeys (pre ++ [(k, v)]) = unifiedKeys pre := by rw [hK', hadd]
    dsimp only
    refine ⟨⟨?_, ?_, ?_⟩, ?_⟩
    · rw [List.map_map, hKeq, ← hkeys]
      apply List.map_congr_left
      intro e2 _
      by_cases hc : e2.key = k
      · simp [hc]
      · simp [hc]
    · rw [hKeq]
      exact hcnt
    · intro e' he'
      rcases List.mem_map.mp he' with ⟨e2, he2, heq⟩
      obtain ⟨hid, hval, hty⟩ := hent e2 he2
      simp only [beq_iff_eq] at heq
      by_cases hke2 : e2.key = k
      · rw [if_pos hke2] at heq
        subst heq
        refine ⟨?_, hval, ?_⟩
        · dsimp only
          rw [hKeq]
          exact hid
        · dsimp only
          rw [typesOf_append_last, hke2, if_pos rfl]
          rw [hty, hke2]
      · rw [if_neg hke2] at heq
        subst heq
        refine ⟨?_, hval, ?_⟩
        · rw [hKeq]
          exact hid
        · rw [typesOf_append_last, if_neg hke2]
          exact hty
    · rw [Property.mk.injEq]
      obtain ⟨hid, _, _⟩ := hent e hme
      refine ⟨?_, rfl, rfl, rfl⟩
      rw [hKeq, hid, hpe]

theorem mkSnapEntry_extend {F u : List String} {kv : String × Value} (h : kv.1 ∈ F) :
    mkSnapEntry (F ++ u) kv = mkSnapEntry F kv := by
  unfold mkSnapEntry
  rw [keyIdx_append_of_mem h]

theorem processDoc_char (doc : Frontmatter) (st : AggState) (pre : Frontmatter)
    (h : stateChar st pre) :
    stateChar (processDoc st doc).1 (pre ++ doc) ∧
    (processDoc st doc).2 = doc.map (mkSnapEntry (unifiedKeys (pre ++ doc))) := by
  induction doc generalizing st pre with
  | nil =>
    constructor
    · show stateChar st (pre ++ [])
      rw [List.append_nil]
      exact h
    · rfl
  | cons kv rest ih =>
    obtain ⟨k, v⟩ := kv
    obtain ⟨hst1, hfm⟩ := processKV_char k v h
    obtain ⟨hfin, hsnap⟩ := ih (processKV st k v).1 (pre ++ [(k, v)]) hst1
    have hassoc : pre ++ [(k, v)] ++ rest = pre ++ (k, v) :: rest := by simp
    rw [hassoc] at hfin hsnap
    refine ⟨hfin, ?_⟩
    show (processKV st k v).2 :: (processDoc (processKV st k v).1 rest).2 =
      ((k, v) :: rest).map (mkSnapEntry (unifiedKeys (pre ++ (k, v) :: rest)))
    rw [List.map_cons, hsnap]
    congr 1
    rw [hfm]
    have hdecomp : ∃ u, unifiedKeys (pre ++ (k, v) :: rest) =
        unifiedKeys (pre ++ [(k, v)]) ++ u := by
      have h1 : pre ++ (k, v) :: rest = (pre ++ [(k, v)]) ++ rest := by simp
      rw [h1]
      unfold unifiedKeys
      rw [List.map_append, keysFold_append]
      exact keysFold_extends _ _
    rcases hdecomp with ⟨u, hu⟩
    have hkmem : (k, v).1 ∈ unifiedKeys (pre ++ [(k, v)]) := by
      apply mem_unifiedKeys.mpr
      simp
    rw [hu, mkSnapEntry_extend hkmem]

theorem processDocs_char (docs : List DocInput) (st : AggState) (pre : Frontmatter)
    (h : stateChar st pre) :
    stateChar (processDocs st docs).1 (pre ++ streamOf docs) ∧
    (processDocs st docs).2 =
      docs.map (fun d =>
        (d.getD []).map (mkSnapEntry (unifiedKeys (pre ++ streamOf docs)))) := by
  induction docs generalizing st pre with
  | nil =>
    constructor
    · show stateChar st (pre ++ streamOf [])
      rw [show streamOf [] = [] from rfl, List.append_nil]
      exact h
    · rfl
  | cons d rest ih =>
    cases d with
    | none =>
      obtain ⟨hfin, hsnap⟩ := ih st pre h
      constructor
      · exact hfin
      · exact congrArg (fun t => ([] : List Property) :: t) hsnap
    | some kvs =>
      obtain ⟨hst1, hsnap1⟩ := processDoc_char kvs st pre h
      obtain ⟨hfin, hsnap⟩ := ih (processDoc st kvs).1 (pre ++ kvs) hst1
      have hassoc : pre ++ kvs ++ streamOf rest = pre ++ streamOf (some kvs :: rest) := by
        show pre ++ kvs ++ streamOf rest = pre ++ (kvs ++ streamOf rest)
        rw [List.append_assoc]
      rw [hassoc] at hfin hsnap
      refine ⟨hfin, ?_⟩
      show (processDoc st kvs).2 :: (processDocs (processDoc st kvs).1 rest).2 =
        ((some kvs :: rest).map (fun d =>
          (d.getD []).map (mkSnapEntry (unifiedKeys (pre ++ streamOf (some kvs :: rest))))))
      rw [List.map_cons, hsnap]
      congr 1
      rw [hsnap1]
      apply List.map_congr_left
      intro kv hkv
      have hdecomp : ∃ u, unifiedKeys (pre ++ streamOf (some kvs :: rest)) =
          unifiedKeys (pre ++ kvs) ++ u := by
        have h1 : pre ++ streamOf (some kvs :: rest) = (pre ++ kvs) ++ streamOf rest := by
          show pre ++ (kvs ++ streamOf rest) = (pre ++ kvs) ++ streamOf rest
          rw [List.append_assoc]
        rw [h1]
        unfold unifiedKeys
        rw [List.map_append, keysFold_append]
        exact keysFold_extends _ _
      rcases hdecomp with ⟨u, hu⟩
      have hkmem : kv.1 ∈ unifiedKeys (pre ++ kvs) := by
        apply mem_unifiedKeys.mpr
        rw [List.map_append]
        exact List.mem_append_right _ (List.mem_map_of_mem Prod.fst hkv)
      rw [hu, mkSnapEntry_extend hkmem]

theorem stateChar_init : stateChar { map := [], counter := 0 } [] := by
  refine ⟨rfl, rfl, ?_⟩
  intro e he
  exact absurd he (List.not_mem_nil e)

theorem getProperties_fst_eq (docs : List DocInput) :
    (getProperties docs).1 =
      (unifiedKeys (streamOf docs)).map (unifiedProp (streamOf docs)) := by
  obtain ⟨hchar, _⟩ := processDocs_char docs { map := [], counter := 0 } [] stateChar_init
  rw [List.nil_append] at hchar
  obtain ⟨hkeys, _, hent⟩ := hchar
  show (processDocs { map := [], counter := 0 } docs).1.map.map finalizeProp = _
  rw [← hkeys, List.map_map]
  apply List.map_congr_left
  intro e he
  obtain ⟨hid, hval, hty⟩ := hent e he
  show finalizeProp e = unifiedProp (streamOf docs) e.key
  unfold finalizeProp unifiedProp
  rw [Property.mk.injEq]
  exact ⟨hid, rfl, hval, by rw [hty]⟩

theorem getProperties_snd_eq (docs : List DocInput) :
    (getProperties docs).2 =
      docs.map (fun d =>
        (d.getD []).map (mkSnapEntry (unifiedKeys (streamOf docs)))) := by
  obtain ⟨_, hsnap⟩ := processDocs_char docs { map := [], counter := 0 } [] stateChar_init
  rw [List.nil_append] at hsnap
  exact hsnap

theorem find?_congr_mem {α : Type} {p q : α → Bool} {l : List α}
    (h : ∀ x ∈ l, p x = q x) : l.find? p = l.find? q := by
  induction l with
  | nil => rfl
  | cons a rest ih =>
    have ha := h a (List.mem_cons_self a rest)
    rw [List.find?_cons, List.find?_cons, ha]
    cases hq : q a with
    | true => rfl
    | false => exact ih (fun x hx => h x (List.mem_cons_of_mem a hx))

theorem replayDoc_formula (docs : List DocInput) (doc : Frontmatter)
    (hdoc : ∀ kv ∈ doc, kv.1 ∈ unifiedKeys (streamOf docs)) :
    replayDoc (getProperties docs).1
        (doc.map (mkSnapEntry (unifiedKeys (streamOf docs)))) =
      (unifiedKeys (streamOf docs)).map (fun k => (k, resolveDoc doc k)) := by
  rw [getProperties_fst_eq]
  unfold replayDoc
  rw [List.map_map]
  apply List.map_congr_left
  intro k hk
  show replayEntry (doc.map (mkSnapEntry (unifiedKeys (streamOf docs))))
      (unifiedProp (streamOf docs) k) = (k, resolveDoc doc k)
  unfold replayEntry
  have hpred : ∀ kv ∈ doc,
      (fun fm => fm.id == (unifiedProp (streamOf docs) k).id)
        ((mkSnapEntry (unifiedKeys (streamOf docs))) kv) =
      (fun kv : String × Value => kv.1 == k) kv := by
    intro kv hkv
    show (keyIdx kv.1 (unifiedKeys (streamOf docs)) ==
        keyIdx k (unifiedKeys (streamOf docs))) = (kv.1 == k)
    rw [Bool.eq_iff_iff]
    simp only [beq_iff_eq]
    constructor
    · intro hidx
      exact keyIdx_inj (hdoc kv hkv) hk hidx
    · intro hkk
      rw [hkk]
  rw [List.find?_map]
  rw [show ((fun fm => fm.id == (unifiedProp (streamOf docs) k).id) ∘
      mkSnapEntry (unifiedKeys (streamOf docs))) =
      (fun kv => (fun fm => fm.id == (unifiedProp (streamOf docs) k).id)
        ((mkSnapEntry (unifiedKeys (streamOf docs))) kv)) from rfl]
  rw [find?_congr_mem hpred]
  unfold resolveDoc
  cases hfind : doc.find? (fun kv => kv.1 == k) with
  | none => rfl
  | some kv0 => rfl

theorem getD_map_of_lt {α β : Type} (f : α → β) (l : List α) (n : Nat) (d : α) (d' : β)
    (h : n < l.length) : (l.map f).getD n d' = f (l.getD n d) := by
  induction l generalizing n with
  | nil => exact absurd h (by simp)
  | cons a rest ih =>
    cases n with
    | zero => rfl
    | succ m =>
      rw [List.map_cons, List.getD_cons_succ, List.getD_cons_succ]
      exact ih m (Nat.lt_of_succ_lt_succ h)

theorem mem_streamOf {docs : List DocInput} {n : Nat} (hn : n < docs.length)
    {kv : String × Value} (hkv : kv ∈ (docs.getD n none).getD []) :
    kv ∈ streamOf docs := by
  induction docs generalizing n with
  | nil => exact absurd hn (by simp)
  | cons d rest ih =>
    cases n with
    | zero =>
      rw [List.getD_cons_zero] at hkv
      exact List.mem_append_left _ hkv
    | succ m =>
      rw [List.getD_cons_succ] at hkv
      exact List.mem_append_right _ (ih (Nat.lt_of_succ_lt_succ hn) hkv)

theorem doc_keys_mem_unifiedKeys {docs : List DocInput} {n : Nat} (hn : n < docs.length)
    {kv : String × Value} (hkv : kv ∈ (docs.getD n none).getD []) :
    kv.1 ∈ unifiedKeys (streamOf docs) :=
  mem_unifiedKeys.mpr (List.mem_map_of_mem Prod.fst (mem_streamOf hn hkv))

theorem snapshot_at (docs : List DocInput) (n : Nat) (hn : n < docs.length) :
    (getProperties docs).2.getD n [] =
      ((docs.getD n none).getD []).map (mkSnapEntry (unifiedKeys (streamOf docs))) := by
  rw [getProperties_snd_eq]
  exact getD_map_of_lt _ docs n none [] hn

theorem replay_at (docs : List DocInput) (n : Nat) (hn : n < docs.length) :
    replayDoc (getProperties docs).1 ((getProperties docs).2.getD n []) =
      (unifiedKeys (streamOf docs)).map
        (fun k => (k, resolveDoc ((docs.getD n none).getD []) k)) := by
  rw [snapshot_at docs n hn]
  exact replayDoc_formula docs _ (fun kv hkv => doc_keys_mem_unifiedKeys hn hkv)

theorem resolveDoc_eq_of_mem {doc : Frontmatter} {k : String} {v : Value}
    (hnd : (doc.map Prod.fst).Nodup) (h : (k, v) ∈ doc) :
    resolveDoc doc k = v := by
  induction doc with
  | nil => exact absurd h (List.not_mem_nil (k, v))
  | cons kv0 rest ih =>
    rw [List.map_cons, List.nodup_cons] at hnd
    obtain ⟨hhead, hrest⟩ := hnd
    unfold resolveDoc
    by_cases hk0 : kv0.1 = k
    · rw [List.find?_cons_of_pos _ (by simpa using hk0)]
      rcases List.mem_cons.mp h with h1 | h1
      · rw [← h1]
      · exact absurd (hk0 ▸ List.mem_map_of_mem Prod.fst h1) (by simpa using hhead)
    · rw [List.find?_cons_of_neg _ (by simpa using hk0)]
      have h1 : (k, v) ∈ rest := by
        rcases List.mem_cons.mp h with h2 | h2
        · exact absurd (congrArg Prod.fst h2.symm) hk0
        · exact h2
      have := ih hrest h1
      unfold resolveDoc at this
      exact this

theorem resolveDoc_eq_of_not_mem {doc : Frontmatter} {k : String}
    (h : k ∉ doc.map Prod.fst) : resolveDoc doc k = Value.vnull := by
  unfold resolveDoc
  rw [List.find?_eq_none.mpr]
  intro kv hkv
  simp only [beq_iff_eq]
  intro hk
  exact h (hk ▸ List.mem_map_of_mem Prod.fst hkv)

theorem modifyIdx_length {α : Type} (f : α → α) (i : Nat) (l : List α) :
    (modifyIdx f i l).length = l.length := by
  induction l generalizing i with
  | nil => cases i <;> rfl
  | cons a rest ih =>
    cases i with
    | zero => rfl
    | succ m =>
      show (a :: modifyIdx f m rest).length = (a :: rest).length
      simp [ih]

theorem getD_modifyIdx_ne {α : Type} (f : α → α) {i j : Nat} (h : j ≠ i)
    (l : List α) (d : α) : (modifyIdx f i l).getD j d = l.getD j d := by
  induction l generalizing i j with
  | nil => cases i <;> rfl
  | cons a rest ih =>
    cases i with
    | zero =>
      cases j with
      | zero => exact absurd rfl h
      | succ jm =>
        show (f a :: rest).getD (jm + 1) d = (a :: rest).getD (jm + 1) d
        rw [List.getD_cons_succ, List.getD_cons_succ]
    | succ im =>
      cases j with
      | zero => rfl
      | succ jm =>
        show (a :: modifyIdx f im rest).getD (jm + 1) d = (a :: rest).getD (jm + 1) d
        rw [List.getD_cons_succ, List.getD_cons_succ]
        exact ih (fun hh => h (congrArg Nat.succ hh))

theorem getD_modifyIdx_eq {α : Type} (f : α → α) {i : Nat} {l : List α}
    (h : i < l.length) (d : α) : (modifyIdx f i l).getD i d = f (l.getD i d) := by
  induction l generalizing i with
  | nil => exact absurd h (by simp)
  | cons a rest ih =>
    cases i with
    | zero => rfl
    | succ m =>
      show (a :: modifyIdx f m rest).getD (m + 1) d = f ((a :: rest).getD (m + 1) d)
      rw [List.getD_cons_succ, List.getD_cons_succ]
      exact ih (Nat.lt_of_succ_lt_succ h)

theorem map_modifyIdx {α β : Type} {f : α → α} {g : α → β} {h2 : β → β}
    (hfg : ∀ x, g (f x) = h2 (g x)) (i : Nat) (l : List α) :
    (modifyIdx f i l).map g = modifyIdx h2 i (l.map g) := by
  induction l generalizing i with
  | nil => cases i <;> rfl
  | cons a rest ih =>
    cases i with
    | zero =>
      show g (f a) :: rest.map g = h2 (g a) :: rest.map g
      rw [hfg]
    | succ m =>
      show g a :: (modifyIdx f m rest).map g = g a :: modifyIdx h2 m (rest.map g)
      rw [ih]

theorem mem_modifyIdx_const {α : Type} {x y : α} {i : Nat} {l : List α}
    (h : y ∈ modifyIdx (fun _ => x) i l) : y = x ∨ y ∈ l := by
  induction l generalizing i with
  | nil =>
    cases i with
    | zero => exact absurd h (List.not_mem_nil y)
    | succ m => exact absurd h (List.not_mem_nil y)
  | cons a rest ih =>
    cases i with
    | zero =>
      rcases List.mem_cons.mp h with h1 | h1
      · exact Or.inl h1
      · exact Or.inr (List.mem_cons_of_mem a h1)
    | succ m =>
      rcases List.mem_cons.mp h with h1 | h1
      · exact Or.inr (h1 ▸ List.mem_cons_self a rest)
      · rcases ih h1 with h2 | h2
        · exact Or.inl h2
        · exact Or.inr (List.mem_cons_of_mem a h2)

theorem nodup_modifyIdx_const {α : Type} {x : α} {l : List α} (hn : l.Nodup)
    (hx : x ∉ l) (i : Nat) : (modifyIdx (fun _ => x) i l).Nodup := by
  induction l generalizing i with
  | nil =>
    cases i with
    | zero => exact List.nodup_nil
    | succ m => exact List.nodup_nil
  | cons a rest ih =>
    rw [List.nodup_cons] at hn
    obtain ⟨ha, hrest⟩ := hn
    have hxa : x ∉ rest := fun hh => hx (List.mem_cons_of_mem a hh)
    cases i with
    | zero =>
      show (x :: rest).Nodup
      rw [List.nodup_cons]
      exact ⟨hxa, hrest⟩
    | succ m =>
      show (a :: modifyIdx (fun _ => x) m rest).Nodup
      rw [List.nodup_cons]
      refine ⟨?_, ih hrest hxa m⟩
      intro hmem
      rcases mem_modifyIdx_const hmem with h1 | h1
      · exact hx (h1 ▸ List.mem_cons_self a rest)
      · exact ha h1

theorem spliceInsert_perm {α : Type} (n : Nat) (a : α) (l : List α) :
    (spliceInsert n a l).Perm (a :: l) := by
  induction l generalizing n with
  | nil =>
    cases n with
    | zero => exact List.Perm.refl _
    | succ m => exact List.Perm.refl _
  | cons b rest ih =>
    cases n with
    | zero => exact List.Perm.refl _
    | succ m =>
      show (b :: spliceInsert m a rest).Perm (a :: b :: rest)
      exact List.Perm.trans (List.Perm.cons b (ih m)) (List.Perm.swap a b rest)

theorem filter_spliceInsert_neg {α : Type} {p : α → Bool} {a : α} (hpa : p a = false)
    (n : Nat) (l : List α) : (spliceInsert n a l).filter p = l.filter p := by
  induction l generalizing n with
  | nil =>
    cases n with
    | zero => simp [spliceInsert, List.filter_cons, hpa]
    | succ m => simp [spliceInsert, List.filter_cons, hpa]
  | cons b rest ih =>
    cases n with
    | zero =>
      show (a :: b :: rest).filter p = (b :: rest).filter p
      rw [List.filter_cons, hpa]
      simp
    | succ m =>
      show (b :: spliceInsert m a rest).filter p = (b :: rest).filter p
      rw [List.filter_cons, List.filter_cons, ih m]

theorem perm_cons_eraseIdx {α : Type} {l : List α} {i : Nat} {a : α}
    (h : l.get? i = some a) : l.Perm (a :: l.eraseIdx i) := by
  induction l generalizing i with
  | nil => simp at h
  | cons b rest ih =>
    cases i with
    | zero =>
      have hb : b = a := by simpa using h
      subst hb
      exact List.Perm.refl _
    | succ m =>
      have h' : rest.get? m = some a := by simpa using h
      show (b :: rest).Perm (a :: b :: rest.eraseIdx m)
      exact List.Perm.trans (List.Perm.cons b (ih h'))
        (List.Perm.swap a b (rest.eraseIdx m))

theorem filter_eraseIdx_pred_false {α : Type} {p : α → Bool} {l : List α} {i : Nat}
    {a : α} (hget : l.get? i = some a) (hpa : p a = false) :
    l.filter p = (l.eraseIdx i).filter p := by
  induction l generalizing i with
  | nil => simp at hget
  | cons b rest ih =>
    cases i with
    | zero =>
      have hb : b = a := by simpa using hget
      show (b :: rest).filter p = ((b :: rest).eraseIdx 0).filter p
      rw [List.filter_cons, hb, hpa]
      simp
    | succ m =>
      have h' : rest.get? m = some a := by simpa using hget
      show (b :: rest).filter p = (b :: rest.eraseIdx m).filter p
      rw [List.filter_cons, List.filter_cons, ih h']

theorem onDrop_perm (props : List Property) (dId dIdx : Nat) :
    (onDrop props dId dIdx).Perm props := by
  unfold onDrop
  cases hfi : props.findIdx? (fun p => p.id == dId) with
  | none => exact List.Perm.refl _
  | some di =>
    dsimp only
    by_cases hde : (di == dIdx) = true
    · rw [if_pos hde]
    · rw [if_neg hde]
      cases hget : props.get? di with
      | none => exact List.Perm.refl _
      | some item =>
        dsimp only
        exact List.Perm.trans (spliceInsert_perm dIdx item (props.eraseIdx di))
          (perm_cons_eraseIdx hget).symm

theorem replayEntry_key (fl : List Property) (p : Property) :
    (replayEntry fl p).1 = p.key := by
  unfold replayEntry
  cases hfind : fl.find? (fun fm => fm.id == p.id) with
  | some found => rfl
  | none => rfl

theorem replayEntry_of_none {fl : List Property} {p : Property}
    (h : fl.find? (fun fm => fm.id == p.id) = none) :
    replayEntry fl p = (p.key, p.value) := by
  unfold replayEntry
  rw [h]

theorem replayEntry_of_some {fl : List Property} {p found : Property}
    (h : fl.find? (fun fm => fm.id == p.id) = some found) :
    replayEntry fl p = (p.key, found.value) := by
  unfold replayEntry
  rw [h]

theorem replayDoc_zip {propertyList frontmatterList : List Property}
    {pr : Property × (String × Value)}
    (hpr : pr ∈ propertyList.zip (replayDoc propertyList frontmatterList)) :
    pr.2 = replayEntry frontmatterList pr.1 := by
  induction propertyList with
  | nil => exact absurd hpr (List.not_mem_nil pr)
  | cons a rest ih =>
    rcases List.mem_cons.mp hpr with h1 | h1
    · rw [h1]
    · exact ih h1

theorem onDrop_filter_other (props : List Property) (dId dIdx : Nat) :
    (onDrop props dId dIdx).filter (fun p => !(p.id == dId)) =
      props.filter (fun p => !(p.id == dId)) := by
  unfold onDrop
  cases hfi : props.findIdx? (fun p => p.id == dId) with
  | none => rfl
  | some di =>
    dsimp only
    by_cases hde : (di == dIdx) = true
    · rw [if_pos hde]
    · rw [if_neg hde]
      cases hget : props.get? di with
      | none => rfl
      | some item =>
        dsimp only
        obtain ⟨hlt, hp, _⟩ := List.findIdx?_eq_some_iff_getElem.mp hfi
        have hitem : props[di] = item := by
          have hge := List.get?_eq_getElem? props di
          rw [hge, List.getElem?_eq_getElem hlt] at hget
          exact Option.some.inj hget
        have hpi : (item.id == dId) = true := by rw [← hitem]; exact hp
        have hpf : (fun p => !(p.id == dId)) item = false := by
          show (!(item.id == dId)) = false
          rw [hpi]
          rfl
        rw [@filter_spliceInsert_neg Property (fun p => !(p.id == dId)) item hpf dIdx
          (props.eraseIdx di)]
        exact (@filter_eraseIdx_pred_false Property (fun p => !(p.id == dId)) props di
          item hget hpf).symm

theorem isDateFormat_data_length {s : String} (h : isDateFormat s = true) :
    s.data.length = 10 := by
  unfold isDateFormat at h
  split at h
  · next heq => rw [heq]; rfl
  · exact absurd h (by simp)

theorem isDateTimeFormat_data_length {s : String} (h : isDateTimeFormat s = true) :
    s.data.length = 16 := by
  unfold isDateTimeFormat at h
  split at h
  · next heq => rw [heq]; rfl
  · exact absurd h (by simp)

theorem isDateFormat_not_dateTime {s : String} (h : isDateFormat s = true) :
    isDateTimeFormat s = false := by
  cases hdt : isDateTimeFormat s with
  | false => rfl
  | true =>
    have h1 := isDateFormat_data_length h
    have h2 := isDateTimeFormat_data_length hdt
    omega

/-- C1 (replay emission rule): for any working list and any document snapshot
with duplicate-free identifiers (as aggregation produces), replay emits
exactly one pair per working-list entry, aligned in working-list order; the
pair's key is the entry's current key name; its value is the value of the
snapshot entry bearing the entry's identifier when such an entry exists, and
the entry's own default value otherwise; an entry whose identifier occurs in
no snapshot (such as one created by Add) makes every document emit its
default; and no key outside the working list is ever emitted. -/
theorem replay_emission_rule (propertyList frontmatterList : List Property)
    (hids : (frontmatterList.map Property.id).Nodup) :
    (replayDoc propertyList frontmatterList).length = propertyList.length ∧
    (∀ pr ∈ propertyList.zip (replayDoc propertyList frontmatterList),
      pr.2.1 = pr.1.key ∧
      (∀ fm ∈ frontmatterList, fm.id = pr.1.id → pr.2.2 = fm.value) ∧
      ((∀ fm ∈ frontmatterList, fm.id ≠ pr.1.id) → pr.2.2 = pr.1.value)) ∧
    (∀ kv ∈ replayDoc propertyList frontmatterList, ∃ e ∈ propertyList, kv.1 = e.key) ∧
    (∀ snaps : List (List Property), ∀ e ∈ propertyList,
      (∀ snap ∈ snaps, ∀ fm ∈ snap, fm.id ≠ e.id) →
      ∀ snap ∈ snaps, (e.key, e.value) ∈ replayDoc propertyList snap) := by
  refine ⟨?_, ?_, ?_, ?_⟩
  · unfold replayDoc
    rw [List.length_map]
  · intro pr hpr
    have hemit := replayDoc_zip hpr
    refine ⟨?_, ?_, ?_⟩
    · rw [hemit, replayEntry_key]
    · intro fm hfm hfmid
      cases hfind : frontmatterList.find? (fun fm2 => fm2.id == pr.1.id) with
      | some fm0 =>
        have hfm0id : fm0.id = pr.1.id := by
          have hb := List.find?_some hfind
          simpa using hb
        have hfm0mem := List.mem_of_find?_eq_some hfind
        have hfmeq : fm = fm0 :=
          List.inj_on_of_nodup_map hids hfm hfm0mem (by rw [hfmid, hfm0id])
        rw [hemit, replayEntry_of_some hfind, hfmeq]
      | none =>
        have hn := List.find?_eq_none.mp hfind fm hfm
        have hb : (fm.id == pr.1.id) = true := by simpa using hfmid
        exact absurd hb hn
    · intro hnone
      cases hfind : frontmatterList.find? (fun fm2 => fm2.id == pr.1.id) with
      | some fm0 =>
        have hfm0id : fm0.id = pr.1.id := by
          have hb := List.find?_some hfind
          simpa using hb
        exact absurd hfm0id (hnone fm0 (List.mem_of_find?_eq_some hfind))
      | none =>
        rw [hemit, replayEntry_of_none hfind]
  · intro kv hkv
    unfold replayDoc at hkv
    rcases List.mem_map.mp hkv with ⟨e, he, hkv2⟩
    exact ⟨e, he, by rw [← hkv2, replayEntry_key]⟩
  · intro snaps e he hfresh snap hsnap
    have hfind : snap.find? (fun fm => fm.id == e.id) = none := by
      apply List.find?_eq_none.mpr
      intro fm hfm
      simp only [beq_iff_eq]
      exact hfresh snap hsnap fm hfm
    have hrw : replayEntry snap e = (e.key, e.value) := replayEntry_of_none hfind
    show (e.key, e.value) ∈ propertyList.map (replayEntry snap)
    rw [← hrw]
    exact List.mem_map_of_mem (replayEntry snap) he

/-- Witness for C1 at a concrete working list and snapshot. -/
theorem replay_emission_rule_witness :
    (wSnap.map Property.id).Nodup ∧
    ((replayDoc wProps wSnap).length = wProps.length ∧
     (∀ pr ∈ wProps.zip (replayDoc wProps wSnap),
       pr.2.1 = pr.1.key ∧
       (∀ fm ∈ wSnap, fm.id = pr.1.id → pr.2.2 = fm.value) ∧
       ((∀ fm ∈ wSnap, fm.id ≠ pr.1.id) → pr.2.2 = pr.1.value)) ∧
     (∀ kv ∈ replayDoc wProps wSnap, ∃ e ∈ wProps, kv.1 = e.key) ∧
     (∀ snaps : List (List Property), ∀ e ∈ wProps,
       (∀ snap ∈ snaps, ∀ fm ∈ snap, fm.id ≠ e.id) →
       ∀ snap ∈ snaps, (e.key, e.value) ∈ replayDoc wProps snap)) :=
  ⟨by decide, replay_emission_rule wProps wSnap (by decide)⟩

theorem renameProperty_accepted {props : List Property} {name : String}
    (hne : name ≠ "") (hnot : ∀ p ∈ props, p.key ≠ name) (i : Nat) :
    renameProperty props i name =
      modifyIdx (fun p => { p with key := name }) i props := by
  have h1 : (name != "") = true := by simpa using hne
  have h2 : (props.any fun p => p.key == name) = false := by
    rw [List.any_eq_false]
    intro p hp
    simp only [beq_iff_eq]
    exact hnot p hp
  unfold renameProperty
  rw [h1, h2]
  rfl

theorem renameProperty_rejected_empty (props : List Property) (i : Nat) :
    renameProperty props i "" = props := by
  unfold renameProperty
  rfl

theorem renameProperty_rejected_dup {props : List Property} {name : String} (i : Nat)
    (h : name ∈ props.map Property.key) :
    renameProperty props i name = props := by
  have h2 : (props.any fun p => p.key == name) = true := by
    rw [List.any_eq_true]
    rcases List.mem_map.mp h with ⟨p, hp, hpk⟩
    exact ⟨p, hp, by simpa using hpk⟩
  unfold renameProperty
  rw [h2]
  simp

theorem replayDoc_rename (props snap : List Property) (i : Nat) (name : String) :
    replayDoc (modifyIdx (fun p => { p with key := name }) i props) snap =
      modifyIdx (fun kv => (name, kv.2)) i (replayDoc props snap) := by
  unfold replayDoc
  apply map_modifyIdx
  intro p
  show replayEntry snap { p with key := name } = (name, (replayEntry snap p).2)
  unfold replayEntry
  cases hfind : snap.find? (fun fm => fm.id == p.id) with
  | some found => rfl
  | none => rfl

theorem snap_entry_id {docs : List DocInput} {s : List Property} {f : Property}
    (hs : s ∈ (getProperties docs).2) (hf : f ∈ s) :
    f.id = keyIdx f.key (unifiedKeys (streamOf docs)) := by
  rw [getProperties_snd_eq] at hs
  rcases List.mem_map.mp hs with ⟨d, _, hsd⟩
  rw [← hsd] at hf
  rcases List.mem_map.mp hf with ⟨kv, _, hkv⟩
  rw [← hkv]
  rfl

theorem getProperties_keys (docs : List DocInput) :
    (getProperties docs).1.map Property.key = unifiedKeys (streamOf docs) := by
  rw [getProperties_fst_eq, List.map_map]
  have hcong : ∀ k ∈ unifiedKeys (streamOf docs),
      (Property.key ∘ unifiedProp (streamOf docs)) k = id k := fun k _ => rfl
  rw [List.map_congr_left hcong, List.map_id]

/-- C2 (identity stability): aggregation assigns any two snapshot entries
carrying the same key name the same identifier; the unified list has exactly
one entry per distinct key name, in first-seen order; and an accepted rename
of the entry at position `i` keeps the list's length, every other entry, and
the renamed entry's identifier, value and type, changing only its key name —
so replay of every document emits the new name at position `i` and is
otherwise unchanged. -/
theorem identity_stability (docs : List DocInput) :
    (∀ s1 ∈ (getProperties docs).2, ∀ s2 ∈ (getProperties docs).2,
      ∀ f1 ∈ s1, ∀ f2 ∈ s2, f1.key = f2.key → f1.id = f2.id) ∧
    ((getProperties docs).1.map Property.key = unifiedKeys (streamOf docs) ∧
     ((getProperties docs).1.map Property.key).Nodup) ∧
    (∀ i name, i < (getProperties docs).1.length → name ≠ "" →
      (∀ p ∈ (getProperties docs).1, p.key ≠ name) →
      (renameProperty (getProperties docs).1 i name).length =
          (getProperties docs).1.length ∧
      (∀ j, j ≠ i →
        (renameProperty (getProperties docs).1 i name).getD j dfltProp =
          (getProperties docs).1.getD j dfltProp) ∧
      ((renameProperty (getProperties docs).1 i name).getD i dfltProp).id =
        ((getProperties docs).1.getD i dfltProp).id ∧
      ((renameProperty (getProperties docs).1 i name).getD i dfltProp).key = name ∧
      ((renameProperty (getProperties docs).1 i name).getD i dfltProp).value =
        ((getProperties docs).1.getD i dfltProp).value ∧
      ((renameProperty (getProperties docs).1 i name).getD i dfltProp).type =
        ((getProperties docs).1.getD i dfltProp).type ∧
      (∀ snap, replayDoc (renameProperty (getProperties docs).1 i name) snap =
        modifyIdx (fun kv => (name, kv.2)) i (replayDoc (getProperties docs).1 snap))) := by
  refine ⟨?_, ⟨getProperties_keys docs, ?_⟩, ?_⟩
  · intro s1 hs1 s2 hs2 f1 hf1 f2 hf2 hkeq
    rw [snap_entry_id hs1 hf1, snap_entry_id hs2 hf2, hkeq]
  · rw [getProperties_keys docs]
    exact unifiedKeys_nodup (streamOf docs)
  · intro i name hi hne hnot
    rw [renameProperty_accepted hne hnot i]
    refine ⟨modifyIdx_length _ i _, ?_, ?_, ?_, ?_, ?_, ?_⟩
    · intro j hj
      exact getD_modifyIdx_ne _ hj _ dfltProp
    · rw [getD_modifyIdx_eq _ hi dfltProp]
    · rw [getD_modifyIdx_eq _ hi dfltProp]
    · rw [getD_modifyIdx_eq _ hi dfltProp]
    · rw [getD_modifyIdx_eq _ hi dfltProp]
    · intro snap
      exact replayDoc_rename (getProperties docs).1 snap i name

/-- Witness for C2 at a concrete selection, renaming the first unified entry
to the fresh name `z`. -/
theorem identity_stability_witness :
    (0 < (getProperties wDocs).1.length ∧ "z" ≠ "" ∧
      (∀ p ∈ (getProperties wDocs).1, p.key ≠ "z")) ∧
    ((renameProperty (getProperties wDocs).1 0 "z").length =
        (getProperties wDocs).1.length ∧
     (∀ j, j ≠ 0 →
       (renameProperty (getProperties wDocs).1 0 "z").getD j dfltProp =
         (getProperties wDocs).1.getD j dfltProp) ∧
     ((renameProperty (getProperties wDocs).1 0 "z").getD 0 dfltProp).id =
       ((getProperties wDocs).1.getD 0 dfltProp).id ∧
     ((renameProperty (getProperties wDocs).1 0 "z").getD 0 dfltProp).key = "z" ∧
     ((renameProperty (getProperties wDocs).1 0 "z").getD 0 dfltProp).value =
       ((getProperties wDocs).1.getD 0 dfltProp).value ∧
     ((renameProperty (getProperties wDocs).1 0 "z").getD 0 dfltProp).type =
       ((getProperties wDocs).1.getD 0 dfltProp).type ∧
     (∀ snap, replayDoc (renameProperty (getProperties wDocs).1 0 "z") snap =
       modifyIdx (fun kv => ("z", kv.2)) 0 (replayDoc (getProperties wDocs).1 snap))) :=
  ⟨⟨by decide, by decide, by decide⟩,
   (identity_stability wDocs).2.2 0 "z" (by decide) (by decide) (by decide)⟩

theorem filter_map_eq {α β : Type} (f : α → β) (p : β → Bool) (l : List α) :
    (l.map f).filter p = (l.filter (fun a => p (f a))).map f := by
  induction l with
  | nil => rfl
  | cons a rest ih =>
    rw [List.map_cons, List.filter_cons, List.filter_cons]
    cases hp : p (f a)
    · simp [ih]
    · simp [ih]

theorem filter_beq_singleton {l : List String} {k : String} (hn : l.Nodup) (hk : k ∈ l) :
    l.filter (fun x => x == k) = [k] := by
  induction l with
  | nil => exact absurd hk (List.not_mem_nil k)
  | cons a rest ih =>
    rw [List.nodup_cons] at hn
    obtain ⟨ha, hrest⟩ := hn
    rw [List.filter_cons]
    by_cases hak : a = k
    · subst hak
      have hempty : rest.filter (fun x => x == a) = [] := by
        apply List.filter_eq_nil_iff.mpr
        intro x hx
        simp only [beq_iff_eq]
        intro hxa
        exact ha (hxa ▸ hx)
      simp [hempty]
    · have hk2 : k ∈ rest := by
        rcases List.mem_cons.mp hk with h1 | h1
        · exact absurd h1.symm hak
        · exact h1
      have hbeq : (a == k) = false := by simpa using hak
      rw [hbeq, if_neg (show ¬(false = true) by simp)]
      exact ih hrest hk2

theorem getD_mem_of_lt {α : Type} {l : List α} {n : Nat} (h : n < l.length) (d : α) :
    l.getD n d ∈ l := by
  induction l generalizing n with
  | nil => exact absurd h (by simp)
  | cons a rest ih =>
    cases n with
    | zero => exact List.mem_cons_self a rest
    | succ m =>
      rw [List.getD_cons_succ]
      exact List.mem_cons_of_mem a (ih (Nat.lt_of_succ_lt_succ h))

/-- C3 counterexample: with the two documents `{a: "1"}` and `{b: "2"}` and
zero edits, replay of the first document emits the pair `(b, null)` — a pair
the document never had — so replay does not reproduce exactly the original
key/value pairs. -/
theorem round_trip_counterexample :
    replayDoc
        (getProperties [some [("a", Value.vstr "1")], some [("b", Value.vstr "2")]]).1
        ((getProperties [some [("a", Value.vstr "1")],
          some [("b", Value.vstr "2")]]).2.getD 0 []) =
      [("a", Value.vstr "1"), ("b", Value.vnull)] ∧
    ("b", Value.vnull) ∉ [(("a" : String), Value.vstr "1")] := by
  decide

/-- C3 amended: aggregating, making zero edits and replaying reproduces, for
each document, every original key/value pair exactly once with a byte-identical
value, the emitted keys being the unified first-seen keys (so only the order
may change for those pairs); however, the replayed document additionally emits
every unified key it lacked, with the `null` placeholder value. -/
theorem round_trip_amended (docs : List DocInput)
    (hnd : ∀ d ∈ docs, ((d.getD []).map Prod.fst).Nodup)
    (n : Nat) (hn : n < docs.length) :
    ((replayDoc (getProperties docs).1 ((getProperties docs).2.getD n [])).map Prod.fst =
      unifiedKeys (streamOf docs)) ∧
    (∀ kv ∈ (docs.getD n none).getD [],
      (replayDoc (getProperties docs).1 ((getProperties docs).2.getD n [])).filter
        (fun o => o.1 == kv.1) = [kv]) ∧
    (∀ o ∈ replayDoc (getProperties docs).1 ((getProperties docs).2.getD n []),
      o.1 ∉ ((docs.getD n none).getD []).map Prod.fst → o.2 = Value.vnull) := by
  rw [replay_at docs n hn]
  refine ⟨?_, ?_, ?_⟩
  · rw [List.map_map]
    have hcong : ∀ k ∈ unifiedKeys (streamOf docs),
        (Prod.fst ∘ fun k => (k, resolveDoc ((docs.getD n none).getD []) k)) k =
          id k := fun k _ => rfl
    rw [List.map_congr_left hcong, List.map_id]
  · intro kv hkv
    rw [filter_map_eq]
    have hkmem : kv.1 ∈ unifiedKeys (streamOf docs) :=
      doc_keys_mem_unifiedKeys hn hkv
    have hfil : (unifiedKeys (streamOf docs)).filter (fun k => k == kv.1) = [kv.1] :=
      filter_beq_singleton (unifiedKeys_nodup (streamOf docs)) hkmem
    rw [hfil]
    rw [List.map_cons, List.map_nil]
    have hres : resolveDoc ((docs.getD n none).getD []) kv.1 = kv.2 :=
      resolveDoc_eq_of_mem (hnd (docs.getD n none) (getD_mem_of_lt hn none)) hkv
    rw [hres]
  · intro o ho hnotin
    rcases List.mem_map.mp ho with ⟨k, _, hko⟩
    rw [← hko]
    show resolveDoc ((docs.getD n none).getD []) k = Value.vnull
    apply resolveDoc_eq_of_not_mem
    intro hmem
    apply hnotin
    rw [← hko] at hnotin ⊢
    exact hmem

/-- Witness for the amended C3 at a concrete selection. -/
theorem round_trip_amended_witness :
    ((∀ d ∈ wDocs, ((d.getD []).map Prod.fst).Nodup) ∧ 0 < wDocs.length) ∧
    (((replayDoc (getProperties wDocs).1 ((getProperties wDocs).2.getD 0 [])).map
        Prod.fst = unifiedKeys (streamOf wDocs)) ∧
     (∀ kv ∈ (wDocs.getD 0 none).getD [],
       (replayDoc (getProperties wDocs).1 ((getProperties wDocs).2.getD 0 [])).filter
         (fun o => o.1 == kv.1) = [kv]) ∧
     (∀ o ∈ replayDoc (getProperties wDocs).1 ((getProperties wDocs).2.getD 0 []),
       o.1 ∉ ((wDocs.getD 0 none).getD []).map Prod.fst → o.2 = Value.vnull)) :=
  ⟨⟨by decide, by decide⟩, round_trip_amended wDocs (by decide) 0 (by decide)⟩

theorem streamOf_keys_congr {docs docs' : List DocInput}
    (hlen : docs'.length = docs.length)
    (hz : ∀ pr ∈ docs.zip docs',
      (pr.1.getD []).map Prod.fst = (pr.2.getD []).map Prod.fst) :
    (streamOf docs).map Prod.fst = (streamOf docs').map Prod.fst := by
  induction docs generalizing docs' with
  | nil =>
    cases docs' with
    | nil => rfl
    | cons d' rest' => simp at hlen
  | cons d rest ih =>
    cases docs' with
    | nil => simp at hlen
    | cons d' rest' =>
      show (d.getD [] ++ streamOf rest).map Prod.fst =
        (d'.getD [] ++ streamOf rest').map Prod.fst
      rw [List.map_append, List.map_append]
      rw [hz (d, d') (List.mem_cons_self _ _)]
      rw [ih (by simpa using hlen) (fun pr hpr => hz pr (List.mem_cons_of_mem _ hpr))]

/-- C4 (no cross-document leakage): if document `i` maps key `X` to `v` and
document `j` lacks `X`, replay with zero edits emits `(X, v)` for `i` and
exactly `(X, null)` — the placeholder default — for `j`; moreover, replacing
the selection by any other selection with the same per-document key structure
that agrees with the original on document `j` leaves document `j`'s replayed
output unchanged, so no other document's values can flow into `j`. -/
theorem no_cross_document_leakage (docs : List DocInput) :
    (∀ i j X v, i < docs.length → j < docs.length →
      (((docs.getD i none).getD []).map Prod.fst).Nodup →
      (X, v) ∈ (docs.getD i none).getD [] →
      X ∉ ((docs.getD j none).getD []).map Prod.fst →
      (X, v) ∈ replayDoc (getProperties docs).1 ((getProperties docs).2.getD i []) ∧
      (replayDoc (getProperties docs).1 ((getProperties docs).2.getD j [])).filter
        (fun o => o.1 == X) = [(X, Value.vnull)]) ∧
    (∀ docs' : List DocInput, docs'.length = docs.length →
      (∀ pr ∈ docs.zip docs',
        (pr.1.getD []).map Prod.fst = (pr.2.getD []).map Prod.fst) →
      ∀ j, j < docs.length → docs'.getD j none = docs.getD j none →
      replayDoc (getProperties docs').1 ((getProperties docs').2.getD j []) =
        replayDoc (getProperties docs).1 ((getProperties docs).2.getD j [])) := by
  constructor
  · intro i j X v hi hj hnd hmemX hnotX
    have hXF : X ∈ unifiedKeys (streamOf docs) := doc_keys_mem_unifiedKeys hi hmemX
    constructor
    · rw [replay_at docs i hi]
      have hres : resolveDoc ((docs.getD i none).getD []) X = v :=
        resolveDoc_eq_of_mem hnd hmemX
      have : (X, resolveDoc ((docs.getD i none).getD []) X) ∈
          (unifiedKeys (streamOf docs)).map
            (fun k => (k, resolveDoc ((docs.getD i none).getD []) k)) :=
        List.mem_map_of_mem _ hXF
      rw [hres] at this
      exact this
    · rw [replay_at docs j hj]
      rw [filter_map_eq]
      rw [filter_beq_singleton (unifiedKeys_nodup (streamOf docs)) hXF]
      rw [List.map_cons, List.map_nil]
      rw [resolveDoc_eq_of_not_mem hnotX]
  · intro docs' hlen hz j hj hdocj
    have hjlen' : j < docs'.length := by rw [hlen]; exact hj
    rw [replay_at docs' j hjlen', replay_at docs j hj]
    have hF : unifiedKeys (streamOf docs') = unifiedKeys (streamOf docs) := by
      unfold unifiedKeys
      rw [← streamOf_keys_congr hlen hz]
    rw [hF, hdocj]

/-- Witness for C4 at a concrete selection: document 0 has `c = 2`, document 1
lacks `c`; `wDocs2` changes only document 0's values. -/
theorem no_cross_document_leakage_witness :
    (0 < wDocs.length ∧ 1 < wDocs.length ∧
     (((wDocs.getD 0 none).getD []).map Prod.fst).Nodup ∧
     ("c", Value.vnum 2) ∈ (wDocs.getD 0 none).getD [] ∧
     "c" ∉ ((wDocs.getD 1 none).getD []).map Prod.fst ∧
     wDocs2.length = wDocs.length ∧
     (∀ pr ∈ wDocs.zip wDocs2,
       (pr.1.getD []).map Prod.fst = (pr.2.getD []).map Prod.fst) ∧
     wDocs2.getD 1 none = wDocs.getD 1 none) ∧
    (("c", Value.vnum 2) ∈ replayDoc (getProperties wDocs).1
        ((getProperties wDocs).2.getD 0 []) ∧
     (replayDoc (getProperties wDocs).1 ((getProperties wDocs).2.getD 1 [])).filter
       (fun o => o.1 == "c") = [("c", Value.vnull)]) ∧
    (replayDoc (getProperties wDocs2).1 ((getProperties wDocs2).2.getD 1 []) =
      replayDoc (getProperties wDocs).1 ((getProperties wDocs).2.getD 1 [])) :=
  ⟨⟨by decide, by decide, by decide, by decide, by decide, by decide, by decide,
    by decide⟩,
   (no_cross_document_leakage wDocs).1 0 1 "c" (Value.vnum 2) (by decide) (by decide)
     (by decide) (by decide) (by decide),
   (no_cross_document_leakage wDocs).2 wDocs2 (by decide) (by decide) 1 (by decide)
     (by decide)⟩

/-- C5 (type labels): per-value inference yields exactly one of the seven
labels, following the spec's mapping (absent/empty value `Null`, sequence
`List`, boolean `Checkbox`, number `Number`, `YYYY-MM-DD` string `Date`,
`YYYY-MM-DD HH:MM` string and native date value `Date & time` — the label's
spelling in the code); and a unified entry's displayed label is the distinct
per-document inferred types of its key, in first-insertion order, joined with
`" | "` — in particular a key seen as Number in document 1 and Text in
document 2 is labelled exactly `"Number | Text"`. -/
theorem type_label_inference :
    (getPropertyType Value.vnull = "Null") ∧
    (∀ vs, getPropertyType (Value.vlist vs) = "List") ∧
    (∀ b, getPropertyType (Value.vbool b) = "Checkbox") ∧
    (∀ q, getPropertyType (Value.vnum q) = "Number") ∧
    (∀ n, getPropertyType (Value.vdate n) = "Date & time") ∧
    (∀ s, isDateFormat s = true → getPropertyType (Value.vstr s) = "Date") ∧
    (∀ s, isDateTimeFormat s = true →
      getPropertyType (Value.vstr s) = "Date & time") ∧
    (∀ s, isDateFormat s = false → isDateTimeFormat s = false →
      getPropertyType (Value.vstr s) = "Text") ∧
    (∀ v, getPropertyType v ∈
      ["Null", "List", "Checkbox", "Number", "Date", "Date & time", "Text"]) ∧
    (∀ docs : List DocInput, ∀ p ∈ (getProperties docs).1,
      p.type = String.intercalate " | " (typesOf (streamOf docs) p.key)) ∧
    ((getProperties [some [("K", Value.vnum 1)],
        some [("K", Value.vstr "hi")]]).1.map Property.type = ["Number | Text"]) := by
  refine ⟨rfl, fun vs => rfl, fun b => rfl, fun q => rfl, fun n => rfl,
    ?_, ?_, ?_, ?_, ?_, by decide⟩
  · intro s h
    simp only [getPropertyType]
    rw [if_pos h]
  · intro s h
    have hd : isDateFormat s = false := by
      cases hdf : isDateFormat s with
      | false => rfl
      | true =>
        rw [isDateFormat_not_dateTime hdf] at h
        exact absurd h (by simp)
    simp only [getPropertyType]
    rw [if_neg (by rw [hd]; simp), if_pos h]
  · intro s h1 h2
    simp only [getPropertyType]
    rw [if_neg (by rw [h1]; simp), if_neg (by rw [h2]; simp)]
  · intro v
    cases v with
    | vnull =>
      show ("Null" : String) ∈ _
      decide
    | vlist vs =>
      show ("List" : String) ∈ _
      decide
    | vbool b =>
      show ("Checkbox" : String) ∈ _
      decide
    | vnum q =>
      show ("Number" : String) ∈ _
      decide
    | vdate n =>
      show ("Date & time" : String) ∈ _
      decide
    | vstr s =>
      simp only [getPropertyType]
      by_cases hd : isDateFormat s = true
      · rw [if_pos hd]
        decide
      · rw [if_neg hd]
        by_cases hdt : isDateTimeFormat s = true
        · rw [if_pos hdt]
          decide
        · rw [if_neg hdt]
          decide
  · intro docs p hp
    rw [getProperties_fst_eq] at hp
    rcases List.mem_map.mp hp with ⟨k, hk, hpk⟩
    rw [← hpk]
    rfl

/-- Witness for C5 at concrete strings and a concrete selection. -/
theorem type_label_inference_witness :
    (isDateFormat "2024-05-01" = true ∧ isDateTimeFormat "2024-05-01 10:30" = true ∧
     isDateFormat "hello" = false ∧ isDateTimeFormat "hello" = false ∧
     (getProperties wDocs).1.getD 0 dfltProp ∈ (getProperties wDocs).1) ∧
    (getPropertyType (Value.vstr "2024-05-01") = "Date" ∧
     getPropertyType (Value.vstr "2024-05-01 10:30") = "Date & time" ∧
     getPropertyType (Value.vstr "hello") = "Text" ∧
     ((getProperties wDocs).1.getD 0 dfltProp).type =
       String.intercalate " | "
         (typesOf (streamOf wDocs) (((getProperties wDocs).1.getD 0 dfltProp)).key)) :=
  ⟨⟨by decide, by decide, by decide, by decide, by decide⟩,
   type_label_inference.2.2.2.2.2.1 "2024-05-01" (by decide),
   type_label_inference.2.2.2.2.2.2.1 "2024-05-01 10:30" (by decide),
   type_label_inference.2.2.2.2.2.2.2.1 "hello" (by decide) (by decide),
   type_label_inference.2.2.2.2.2.2.2.2.2.1 wDocs
     ((getProperties wDocs).1.getD 0 dfltProp) (by decide)⟩

theorem addNewProperty_rejected_empty {props : List Property} {name : String}
    (h : jsTrim name = "") (freshId : Nat) :
    addNewProperty props name freshId = props := by
  unfold addNewProperty
  rw [h]
  rfl

theorem addNewProperty_rejected_dup {props : List Property} {name : String}
    (h : jsTrim name ∈ props.map Property.key) (freshId : Nat) :
    addNewProperty props name freshId = props := by
  have h2 : (props.any fun p => p.key == jsTrim name) = true := by
    rw [List.any_eq_true]
    rcases List.mem_map.mp h with ⟨p, hp, hpk⟩
    exact ⟨p, hp, by simpa using hpk⟩
  unfold addNewProperty
  dsimp only
  rw [h2]
  simp

theorem addNewProperty_keys_nodup {props : List Property}
    (hk : (props.map Property.key).Nodup) (name : String) (freshId : Nat) :
    ((addNewProperty props name freshId).map Property.key).Nodup := by
  unfold addNewProperty
  dsimp only
  by_cases hc : (jsTrim name != "" && !(props.any fun p => p.key == jsTrim name)) = true
  · rw [if_pos hc]
    rw [List.map_append, List.nodup_append]
    refine ⟨hk, by simp, ?_⟩
    rw [Bool.and_eq_true] at hc
    obtain ⟨_, hnot⟩ := hc
    rw [Bool.not_eq_true'] at hnot
    rw [List.any_eq_false] at hnot
    intro a ha hb
    simp only [List.map_cons, List.map_nil, List.mem_singleton] at hb
    subst hb
    rcases List.mem_map.mp ha with ⟨p, hp, hpk⟩
    exact hnot p hp (by simpa using hpk)
  · rw [if_neg hc]
    exact hk

theorem renameProperty_keys_nodup {props : List Property}
    (hk : (props.map Property.key).Nodup) (i : Nat) (name : String) :
    ((renameProperty props i name).map Property.key).Nodup := by
  unfold renameProperty
  by_cases hc : (name != "" && !(props.any fun p => p.key == name)) = true
  · rw [if_pos hc]
    rw [Bool.and_eq_true] at hc
    obtain ⟨_, hnot⟩ := hc
    rw [Bool.not_eq_true'] at hnot
    rw [List.any_eq_false] at hnot
    have hmap := @map_modifyIdx Property String (fun p => { p with key := name })
      Property.key (fun _ => name) (fun p => rfl) i props
    rw [hmap]
    apply nodup_modifyIdx_const hk
    intro hmem
    rcases List.mem_map.mp hmem with ⟨p, hp, hpk⟩
    exact hnot p hp (by simpa using hpk)
  · rw [if_neg hc]
    exact hk

theorem deleteProperty_keys_nodup {props : List Property}
    (hk : (props.map Property.key).Nodup) (i : Nat) :
    ((deleteProperty props i).map Property.key).Nodup := by
  unfold deleteProperty
  exact List.Nodup.sublist
    (List.Sublist.map Property.key (List.eraseIdx_sublist props i)) hk

theorem onDrop_keys_nodup {props : List Property}
    (hk : (props.map Property.key).Nodup) (dId dIdx : Nat) :
    ((onDrop props dId dIdx).map Property.key).Nodup := by
  exact ((onDrop_perm props dId dIdx).map Property.key).nodup_iff.mpr hk

/-- C6 (invalid edits are no-ops; key names stay unique): on a working list
with pairwise-distinct key names, an Add whose trimmed name is empty or
already present, and a Rename whose new name is empty or already present,
leave the list unchanged (and, being total functions, raise no error); and
Add, Rename, Delete and Reorder all preserve the pairwise distinctness of the
key names. -/
theorem invalid_edits_noop (props : List Property)
    (hk : (props.map Property.key).Nodup) :
    (∀ name freshId, jsTrim name = "" → addNewProperty props name freshId = props) ∧
    (∀ name freshId, jsTrim name ∈ props.map Property.key →
      addNewProperty props name freshId = props) ∧
    (∀ i, renameProperty props i "" = props) ∧
    (∀ i name, name ∈ props.map Property.key → renameProperty props i name = props) ∧
    (∀ name freshId, ((addNewProperty props name freshId).map Property.key).Nodup) ∧
    (∀ i name, ((renameProperty props i name).map Property.key).Nodup) ∧
    (∀ i, ((deleteProperty props i).map Property.key).Nodup) ∧
    (∀ dId dIdx, ((onDrop props dId dIdx).map Property.key).Nodup) := by
  refine ⟨?_, ?_, ?_, ?_, ?_, ?_, ?_, ?_⟩
  · intro name freshId h
    exact addNewProperty_rejected_empty h freshId
  · intro name freshId h
    exact addNewProperty_rejected_dup h freshId
  · intro i
    exact renameProperty_rejected_empty props i
  · intro i name h
    exact renameProperty_rejected_dup i h
  · intro name freshId
    exact addNewProperty_keys_nodup hk name freshId
  · intro i name
    exact renameProperty_keys_nodup hk i name
  · intro i
    exact deleteProperty_keys_nodup hk i
  · intro dId dIdx
    exact onDrop_keys_nodup hk dId dIdx

/-- Witness for C6 at a concrete working list. -/
theorem invalid_edits_noop_witness :
    ((wProps.map Property.key).Nodup ∧ jsTrim "  " = "" ∧
     jsTrim "a" ∈ wProps.map Property.key ∧
     "b" ∈ wProps.map Property.key) ∧
    (addNewProperty wProps "  " 99 = wProps ∧
     addNewProperty wProps "a" 99 = wProps ∧
     renameProperty wProps 0 "" = wProps ∧
     renameProperty wProps 0 "b" = wProps ∧
     ((addNewProperty wProps "c" 99).map Property.key).Nodup ∧
     ((renameProperty wProps 0 "c").map Property.key).Nodup ∧
     ((deleteProperty wProps 0).map Property.key).Nodup ∧
     ((onDrop wProps 0 1).map Property.key).Nodup) :=
  ⟨⟨by decide, by decide, by decide, by decide⟩,
   (invalid_edits_noop wProps (by decide)).1 "  " 99 (by decide),
   (invalid_edits_noop wProps (by decide)).2.1 "a" 99 (by decide),
   (invalid_edits_noop wProps (by decide)).2.2.1 0,
   (invalid_edits_noop wProps (by decide)).2.2.2.1 0 "b" (by decide),
   (invalid_edits_noop wProps (by decide)).2.2.2.2.1 "c" 99,
   (invalid_edits_noop wProps (by decide)).2.2.2.2.2.1 0 "c",
   (invalid_edits_noop wProps (by decide)).2.2.2.2.2.2.1 0,
   (invalid_edits_noop wProps (by decide)).2.2.2.2.2.2.2 0 1⟩

/-- C7 (reorder is a pure permutation): when the dragged identifier occurs in
the working list, `onDrop` produces a permutation of the working list — the
multiset of whole entries, hence of `(identifier, key name)` pairs, is
unchanged — entries other than the dragged one keep their relative order, and
replay of any document before and after the reorder yields permutations of
each other (the same key/value pairs in a different order). -/
theorem reorder_pure_permutation (props : List Property) (dId dIdx : Nat)
    (_hmem : dId ∈ props.map Property.id) :
    (onDrop props dId dIdx).Perm props ∧
    ((onDrop props dId dIdx).filter (fun p => !(p.id == dId)) =
      props.filter (fun p => !(p.id == dId))) ∧
    (∀ snap, (replayDoc (onDrop props dId dIdx) snap).Perm (replayDoc props snap)) := by
  refine ⟨onDrop_perm props dId dIdx, onDrop_filter_other props dId dIdx, ?_⟩
  intro snap
  exact (onDrop_perm props dId dIdx).map (replayEntry snap)

/-- Witness for C7 at a concrete working list, dragging entry 0 to index 1. -/
theorem reorder_pure_permutation_witness :
    (0 ∈ wProps.map Property.id) ∧
    ((onDrop wProps 0 1).Perm wProps ∧
     ((onDrop wProps 0 1).filter (fun p => !(p.id == 0)) =
       wProps.filter (fun p => !(p.id == 0))) ∧
     (∀ snap, (replayDoc (onDrop wProps 0 1) snap).Perm (replayDoc wProps snap))) :=
  ⟨by decide, reorder_pure_permutation wProps 0 1 (by decide)⟩

/-- C8 counterexample: the scalar string `[[x]]` matches `wikiLinkPattern`,
yet `stringifyValue` passes it through unchanged instead of emitting any
quoted form — the quoting of cross-reference strings applies only to elements
of list values, not to every matching string. -/
theorem stringify_scalar_wiki_counterexample :
    wikiLinkTest "[[x]]" = true ∧
    stringifyValue (Value.vstr "[[x]]") = some "[[x]]" ∧
    "[[x]]" ≠ "\"[[x]]\"" := by decide

/-- C8 amended: a list value serializes as a block sequence with one
`"\n  - "` entry per element, the write aborting at the first element whose
serialization throws; a list element that is a string matching the
cross-reference pattern `^\[\[.*\]\]$` becomes a quoted literal entry with
interior double quotes escaped; a list element whose string coercion does not
match the pattern is emitted plainly after the entry marker; and every
non-list value — including a top-level string matching the pattern — passes
through unchanged as its string form.  (A non-string element whose string
coercion matches the pattern reaches `v.replace` on a value without a
`replace` method and throws, modelled as `none`.) -/
theorem stringify_value_amended :
    (∀ vs, stringifyValue (Value.vlist vs) = (vs.mapM stringifyElem).map String.join) ∧
    (∀ s, wikiLinkTest s = true →
      stringifyElem (Value.vstr s) = some ("\n  - \"" ++ escapeQuotes s ++ "\"")) ∧
    (∀ v, wikiLinkTest (jsString v) = false →
      stringifyElem v = some ("\n  - " ++ jsString v)) ∧
    (∀ s, stringifyValue (Value.vstr s) = some s) ∧
    (escapeQuotes "say \"hi\"" = "say \\\"hi\\\"") ∧
    (stringifyValue (Value.vlist [Value.vstr "[[A]]", Value.vnum 3]) =
      some "\n  - \"[[A]]\"\n  - 3") ∧
    (stringifyElem (Value.vlist [Value.vstr "[[x]]"]) = none) := by
  refine ⟨fun vs => rfl, ?_, ?_, fun s => rfl, by decide, by decide, by decide⟩
  · intro s h
    unfold stringifyElem
    rw [if_pos (show wikiLinkTest (jsString (Value.vstr s)) = true from h)]
  · intro v h
    unfold stringifyElem
    rw [if_neg (by rw [h]; simp)]

/-- Witness for the amended C8 at concrete elements. -/
theorem stringify_value_amended_witness :
    (wikiLinkTest "[[A]]" = true ∧
     wikiLinkTest (jsString (Value.vnum 3)) = false) ∧
    (stringifyElem (Value.vstr "[[A]]") =
      some ("\n  - \"" ++ escapeQuotes "[[A]]" ++ "\"") ∧
     stringifyElem (Value.vnum 3) = some ("\n  - " ++ jsString (Value.vnum 3)) ∧
     stringifyValue (Value.vstr "[[A]]") = some "[[A]]") :=
  ⟨⟨by decide, by decide⟩,
   stringify_value_amended.2.1 "[[A]]" (by decide),
   stringify_value_amended.2.2.1 (Value.vnum 3) (by decide),
   stringify_value_amended.2.2.2.1 "[[A]]"⟩

/-- C9 (code bug witnessed): rewriting a file whose content contains no `---`
delimiter discards the file's entire body — `content.split('---').slice(2)`
is empty for such a file, so the written value is just the new frontmatter
block and the original text is lost, contradicting the documented contract
that content outside the metadata block is untouched. -/
theorem write_discards_body_without_delimiters :
    updateOneFile [{ id := 0, key := "Score", value := Value.vstr "0", type := "Text" }]
        [] "Some plain notes." = some "---\nScore: 0\n---\n" ∧
    "Some plain notes." ≠ "" := by decide

theorem range_map_getD {α β : Type} (l : List α) (d : α) (f : α → β) :
    (List.range l.length).map (fun i => f (l.getD i d)) = l.map f := by
  induction l with
  | nil => rfl
  | cons a rest ih =>
    rw [List.length_cons, List.range_succ_eq_map]
    rw [List.map_cons, List.map_map]
    have hcong : ∀ i ∈ List.range rest.length,
        ((fun i => f ((a :: rest).getD i d)) ∘ Nat.succ) i =
          (fun i => f (rest.getD i d)) i := by
      intro i _
      show f ((a :: rest).getD (i + 1) d) = f (rest.getD i d)
      rw [List.getD_cons_succ]
    rw [List.map_congr_left hcong, ih]
    rfl

/-- C10 (snapshot–document alignment): aggregation on a freshly reset store
(`initializeView`) yields exactly one snapshot per selected document in
selection order — an absent metadata block contributing an empty snapshot —
so the snapshot array has the document list's length; the batch write pairs
position `i` with document `i`'s own snapshot; and none of the four edit
operations changes the snapshot store. -/
theorem snapshot_alignment (docs : List DocInput) :
    ((initView docs).frontmatterLists.length = docs.length) ∧
    (∀ n, n < docs.length → docs.getD n none = none →
      (initView docs).frontmatterLists.getD n [] = []) ∧
    (∀ n, n < docs.length →
      ((initView docs).frontmatterLists.getD n []).map (fun fm => (fm.key, fm.value)) =
        (docs.getD n none).getD []) ∧
    (batchWriteFrontmatter docs.length (initView docs).propertyList
        (initView docs).frontmatterLists =
      (initView docs).frontmatterLists.map (replayDoc (initView docs).propertyList)) ∧
    (∀ name freshId, (sessionAdd (initView docs) name freshId).frontmatterLists =
      (initView docs).frontmatterLists) ∧
    (∀ i name, (sessionRename (initView docs) i name).frontmatterLists =
      (initView docs).frontmatterLists) ∧
    (∀ i, (sessionDelete (initView docs) i).frontmatterLists =
      (initView docs).frontmatterLists) ∧
    (∀ dId dIdx, (sessionReorder (initView docs) dId dIdx).frontmatterLists =
      (initView docs).frontmatterLists) := by
  refine ⟨?_, ?_, ?_, ?_, fun name freshId => rfl, fun i name => rfl, fun i => rfl,
    fun dId dIdx => rfl⟩
  · show (getProperties docs).2.length = docs.length
    rw [getProperties_snd_eq docs, List.length_map]
  · intro n hn habs
    show (getProperties docs).2.getD n [] = []
    rw [snapshot_at docs n hn, habs]
    rfl
  · intro n hn
    show ((getProperties docs).2.getD n []).map (fun fm => (fm.key, fm.value)) =
      (docs.getD n none).getD []
    rw [snapshot_at docs n hn, List.map_map]
    have hcong : ∀ kv ∈ (docs.getD n none).getD [],
        ((fun fm => (fm.key, fm.value)) ∘
          mkSnapEntry (unifiedKeys (streamOf docs))) kv = id kv := fun kv _ => rfl
    rw [List.map_congr_left hcong, List.map_id]
  · show (List.range docs.length).map
        (fun i => replayDoc (getProperties docs).1 ((getProperties docs).2.getD i [])) =
      (getProperties docs).2.map (replayDoc (getProperties docs).1)
    have hlen : (getProperties docs).2.length = docs.length := by
      rw [getProperties_snd_eq docs, List.length_map]
    rw [← hlen]
    exact range_map_getD (getProperties docs).2 [] (replayDoc (getProperties docs).1)

/-- Witness for C10 at a concrete selection (its third document lacks a
metadata block). -/
theorem snapshot_alignment_witness :
    (2 < wDocs.length ∧ wDocs.getD 2 none = none ∧ 0 < wDocs.length) ∧
    ((initView wDocs).frontmatterLists.length = wDocs.length ∧
     (initView wDocs).frontmatterLists.getD 2 [] = [] ∧
     ((initView wDocs).frontmatterLists.getD 0 []).map (fun fm => (fm.key, fm.value)) =
       (wDocs.getD 0 none).getD [] ∧
     batchWriteFrontmatter wDocs.length (initView wDocs).propertyList
         (initView wDocs).frontmatterLists =
       (initView wDocs).frontmatterLists.map (replayDoc (initView wDocs).propertyList) ∧
     (∀ name freshId, (sessionAdd (initView wDocs) name freshId).frontmatterLists =
       (initView wDocs).frontmatterLists)) :=
  ⟨⟨by decide, by decide, by decide⟩,
   (snapshot_alignment wDocs).1,
   (snapshot_alignment wDocs).2.1 2 (by decide) (by decide),
   (snapshot_alignment wDocs).2.2.1 0 (by decide),
   (snapshot_alignment wDocs).2.2.2.1,
   (snapshot_alignment wDocs).2.2.2.2.1⟩
